import Mathlib

/-!
Line-oriented patch engine (`cmd/apps/differential`).

A shallow embedding of `pkg/diff.go`: the `Change` record, the two error
kinds, `FindLocation` and `ApplyChange`, over documents represented as lists
of lines.

Conventions of the embedding.

* A Go `[]string` is a `List String`; the nil slice and the empty slice are
  both `[]`.
* A Go `int` index is an `Int`; `-1` is the matcher's not-found value.
* A Go multiple return `(v, err)` is a pair whose second component is
  `Option Error` (`none` is the nil error).
* A slice expression whose bounds are out of range panics in Go; the
  embedding makes that explicit: slicing returns `Option`, and `ApplyChange`
  returns `none` exactly where the Go code would panic.
* `append(a, b...)` is the list `a ++ b`, the value the call returns. Every
  second argument of an `append` in `ApplyChange` is either a fresh slice or a
  later part of the same backing array, so the returned value is the
  concatenation whether or not `append` reuses the backing array of `a`.
  What `append` does to the caller's backing array is the subject of a second
  embedding, `ApplyChangeInPlace`, which returns the same values
  (`ApplyChangeInPlace_eq`) together with the array after the call.
* Package `kmp` is not among the sources. `kmp.KMPSearch` models it from the
  specification; `ApplyChangeWith` takes the matcher as a parameter instead
  and is `ApplyChange` for the modelled matcher (`ApplyChangeWith_KMPSearch`).
* Lines are `String`s and `strings.Split` cuts at the line-feed character,
  which is how Go cuts a valid UTF-8 string at the byte `0x0A`.
-/

namespace Differential

/-! ## `strings.Split` -/

namespace strings

/-- Pieces of a character list between occurrences of the separator `sep`:
always at least one piece, one more than the number of separators. -/
def splitChars (sep : Char) : List Char → List (List Char)
  | [] => [[]]
  | c :: cs =>
    if c = sep then [] :: splitChars sep cs
    else
      match splitChars sep cs with
      | [] => [[c]]
      | piece :: pieces => (c :: piece) :: pieces

/-- Go `strings.Split(s, sep)` for a one-character separator (the source only
calls it with the newline separator). -/
def Split (s : String) (sep : Char) : List String :=
  (splitChars sep s.data).map String.mk

end strings

/-- The separator of every `strings.Split` call in `diff.go`: a line feed. -/
def nl : Char := Char.ofNat 10

/-! ## Data model (`diff.go`, lines 9-47) -/

/-- Go `type Action string`. -/
abbrev Action := String

def ActionReplace : Action := "replace"
def ActionDelete : Action := "delete"
def ActionMove : Action := "move"
def ActionInsert : Action := "insert"

/-- Go `type Change struct`: a single change in the DSL. -/
structure Change where
  Comment : String
  Action : Action
  Old : String
  New : String
  Content : String
  DestinationAbove : String
  DestinationBelow : String
  deriving DecidableEq, Repr

/-- The two error types of `diff.go`: `*ErrCodeBlock` and `*ErrInvalidChange`
(with its `msg` field). -/
inductive Error where
  | ErrCodeBlock
  | ErrInvalidChange (msg : String)
  deriving DecidableEq, Repr

/-! ## Slice expressions -/

/-- Go `s[:hi]`; `none` when the bound is out of range (a panic). The capacity
of the slice is taken to be its length. -/
def sliceTo {α : Type} (s : List α) (hi : Int) : Option (List α) :=
  if 0 ≤ hi ∧ hi ≤ (s.length : Int) then some (s.take hi.toNat) else none

/-- Go `s[lo:]`; `none` when the bound is out of range (a panic). -/
def sliceFrom {α : Type} (s : List α) (lo : Int) : Option (List α) :=
  if 0 ≤ lo ∧ lo ≤ (s.length : Int) then some (s.drop lo.toNat) else none

/-- Go `s[lo:hi]`; `none` when the bounds are out of range (a panic). -/
def slice {α : Type} (s : List α) (lo hi : Int) : Option (List α) :=
  if 0 ≤ lo ∧ lo ≤ hi ∧ hi ≤ (s.length : Int) then
    some ((s.take hi.toNat).drop lo.toNat)
  else none

/-! ## The sequence matcher (package `kmp`) -/

namespace kmp

variable {α : Type} [DecidableEq α]

/-- Modelled from the spec: the fall-back step of the matcher of package `kmp`,
which is not among the sources (section 4.1: on a mismatch the search advances
using previously matched information). One haystack element `c` is consumed
from matcher state `j` (the number of needle elements currently matched):
extend the match when `pattern[j] == c`,
otherwise fall back through the failure table (`j = lps[j-1]`) until an
extension is possible or `j` is `0`. The fall-back walk visits at most `j + 1`
states, which is the fuel the callers pass. -/
def advance (pattern : List α) (lps : List Nat) : Nat → Nat → α → Nat
  | 0, _, _ => 0
  | fuel + 1, j, c =>
    if pattern[j]? = some c then j + 1
    else if j = 0 then 0
    else advance pattern lps fuel (lps.getD (j - 1) 0) c

/-- Modelled from the spec: loop of the failure-function computation of
package `kmp`, which is not among the sources. `rest` holds the needle elements
not yet processed, `lps` the table built so far and `len` its last entry. -/
def computeLPSLoop (pattern : List α) : List α → List Nat → Nat → List Nat
  | [], lps, _ => lps
  | c :: rest, lps, len =>
    let len1 := advance pattern lps (len + 1) len c
    computeLPSLoop pattern rest (lps ++ [len1]) len1

/-- Modelled from the spec: the failure function (partial-match table) that
package `kmp`, which is not among the sources, precomputes over the needle
(section 4.1). Entry `k` is the length of the longest proper prefix of
`pattern[0..k]` that is also a suffix of it. -/
def computeLPS (pattern : List α) : List Nat :=
  match pattern with
  | [] => []
  | _ :: rest => computeLPSLoop pattern rest [0] 0

/-- Modelled from the spec: search loop of package `kmp`, which is not among
the sources. `text` is the part of the haystack not yet read, `i` the number
of haystack elements read and `j` the matcher state. The haystack is read
once, left to right, without backtracking; a full match ending at element `i`
is reported as its start index. -/
def searchLoop (pattern : List α) (lps : List Nat) : List α → Nat → Nat → Int
  | [], _, _ => -1
  | c :: text, i, j =>
    let j1 := advance pattern lps (j + 1) j c
    if j1 = pattern.length then ((i + 1 : Nat) : Int) - (j1 : Int)
    else searchLoop pattern lps text (i + 1) j1

/-- Modelled from the spec: package `cmd/apps/differential/kmp` (function
`KMPSearch`, called from `diff.go`) is not among the sources. Following
section 4.1 of the specification: the failure function is precomputed over
the needle, the haystack is scanned without backtracking, the result is the
start index of the first occurrence of the needle as a contiguous run, and
`-1` (not found) when the needle is empty or does not occur. -/
def KMPSearch (text pattern : List α) : Int :=
  if pattern.length = 0 then -1
  else searchLoop pattern (computeLPS pattern) text 0 0

/-! ### Specification vocabulary of the matcher -/

/-- The needle `N` occurs in the haystack `H` at start index `i`:
`H[i : i+len(N)] == N`. -/
def OccursAt (H N : List α) (i : Nat) : Prop :=
  i + N.length ≤ H.length ∧ (H.drop i).take N.length = N

instance (H N : List α) (i : Nat) : Decidable (OccursAt H N i) :=
  inferInstanceAs (Decidable (_ ∧ _))

/-- The needle `N` occurs in `H` at `i` and at no smaller start index. -/
def FirstOccurrence (H N : List α) (i : Nat) : Prop :=
  OccursAt H N i ∧ ∀ i1, OccursAt H N i1 → i ≤ i1

/-- The matcher state after reading `t`: `j` is the greatest length of a
prefix of `p` that is a suffix of `t`. -/
def Greatest (p t : List α) (j : Nat) : Prop :=
  j ≤ p.length ∧ p.take j <:+ t ∧ ∀ k, k ≤ p.length → p.take k <:+ t → k ≤ j

/-- Correctness of a (partial) failure table: entry `k` is the matcher state
after reading the `k` needle elements that follow the first one, that is, the
length of the longest proper border of `p[0..k]`. -/
def TableOK (p : List α) (lps : List Nat) : Prop :=
  ∀ k, k < lps.length → Greatest p (p.tail.take k) (lps.getD k 0)

end kmp

/-! ## `FindLocation` and `ApplyChange` (`diff.go`, lines 49-155) -/

/-- Go `FindLocation`: the line number of the block (or `-1`), and an error
if the block was not found. -/
def FindLocation (sourceLines locationLines : List String) : Int × Option Error :=
  if locationLines.length = 0 then (-1, some Error.ErrCodeBlock)
  else
    let l := kmp.KMPSearch sourceLines locationLines
    if l = -1 then (-1, some Error.ErrCodeBlock)
    else (l, none)

/-- The text of the `ErrInvalidChange` raised when both destinations are set. -/
def msgBothDestinations : String :=
  "Cannot specify both destination_above and destination_below"

/-- The text of the `ErrInvalidChange` raised in the `default` case. -/
def msgUnsupportedAction : String := "Unsupported action"

/-- Go `ApplyChange`. The result is `none` when the Go code would panic on a
slice bound, and otherwise `some (lines, err)`, the two returned values. -/
def ApplyChange (sourceLines : List String) (change : Change) :
    Option (List String × Option Error) :=
  if change.Action = ActionReplace ∨ change.Action = ActionDelete ∨
      change.Action = ActionMove then
    let contentLines :=
      if change.Action ≠ ActionReplace then strings.Split change.Content nl
      else strings.Split change.Old nl
    let startIdx := kmp.KMPSearch sourceLines contentLines
    if startIdx = -1 then some ([], some Error.ErrCodeBlock)
    else
      let endIdx := startIdx + (contentLines.length : Int)
      if change.Action = ActionReplace then do
        let newLines := strings.Split change.New nl
        let before ← sliceTo sourceLines startIdx
        let after ← sliceFrom sourceLines endIdx
        some (before ++ (newLines ++ after), none)
      else if change.Action = ActionDelete then do
        let before ← sliceTo sourceLines startIdx
        let after ← sliceFrom sourceLines endIdx
        some (before ++ after, none)
      else
        let destination := change.DestinationAbove
        if destination ≠ "" ∧ change.DestinationBelow ≠ "" then
          some ([], some (Error.ErrInvalidChange msgBothDestinations))
        else
          let destination :=
            if destination = "" then change.DestinationBelow else destination
          let destLines := strings.Split destination nl
          match FindLocation sourceLines destLines with
          | (_, some err) => some ([], some err)
          | (moveIdx, none) => do
            let moveIdx :=
              if change.DestinationBelow ≠ "" then moveIdx + (destLines.length : Int)
              else moveIdx
            let segment ← slice sourceLines startIdx endIdx
            let before ← sliceTo sourceLines startIdx
            let after ← sliceFrom sourceLines endIdx
            let sourceLines := before ++ after
            if (sourceLines.length : Int) < moveIdx then
              some (sourceLines ++ segment, none)
            else do
              let front ← sliceTo sourceLines moveIdx
              let back ← sliceFrom sourceLines moveIdx
              some (front ++ (segment ++ back), none)
  else if change.Action = ActionInsert then
    if sourceLines.length = 0 then
      some (sourceLines ++ [change.Content], none)
    else
      let contentLines := strings.Split change.Content nl
      let destination := change.DestinationAbove
      if destination ≠ "" ∧ change.DestinationBelow ≠ "" then
        some ([], some (Error.ErrInvalidChange msgBothDestinations))
      else
        let destination :=
          if destination = "" then change.DestinationBelow else destination
        let destLines := strings.Split destination nl
        match FindLocation sourceLines destLines with
        | (_, some err) => some ([], some err)
        | (insertIdx, none) => do
          let insertIdx :=
            if change.DestinationBelow ≠ "" then insertIdx + (destLines.length : Int)
            else insertIdx
          let front ← sliceTo sourceLines insertIdx
          let back ← sliceFrom sourceLines insertIdx
          some (front ++ (contentLines ++ back), none)
  else
    some ([], some (Error.ErrInvalidChange msgUnsupportedAction))

/-! ## Specification vocabulary of the patch applier -/

/-- The destination text that `ApplyChange` resolves for a move or insert
change: `destination_above`, or `destination_below` when that one is empty
(`destination := change.DestinationAbove`, then `if destination == ""`). -/
def Change.destination (c : Change) : String :=
  if c.DestinationAbove = "" then c.DestinationBelow else c.DestinationAbove

/-- The move described by section 4.2 of the specification, following its
words: remove the first occurrence of the content block, locate the anchor
block in the post-removal document, and insert the block at the anchor's start
(`destination_above`) or right after the anchor (`destination_below`). `none`
when one of the two blocks is not found. -/
def specMove (D : List String) (c : Change) : Option (List String) :=
  let X := strings.Split c.Content nl
  let A := strings.Split c.destination nl
  let i := kmp.KMPSearch D X
  if i = -1 then none
  else
    let D1 := D.take i.toNat ++ D.drop (i.toNat + X.length)
    let j := kmp.KMPSearch D1 A
    if j = -1 then none
    else
      let p := if c.DestinationBelow ≠ "" then j.toNat + A.length else j.toNat
      some (D1.take p ++ X ++ D1.drop p)

/-- The edited document of section 4.2 of the specification, following its
words; `none` where the specification has the change fail.
* replace: locate the block `split(old)`; keep the lines before the match,
  insert the lines of `new`, keep the lines after the match.
* delete: locate the block `split(content)`; lines before ++ lines after.
* move: both destinations set fails; otherwise `specMove`.
* insert: on the empty document the content block becomes the entire document
  (destination resolution is skipped); otherwise both destinations set fails,
  and the content block is spliced in at the anchor's start
  (`destination_above`) or right after the anchor (`destination_below`).
* any other action fails. -/
def specEdit (D : List String) (c : Change) : Option (List String) :=
  if c.Action = ActionReplace then
    let B := strings.Split c.Old nl
    let i := kmp.KMPSearch D B
    if i = -1 then none
    else some (D.take i.toNat ++ strings.Split c.New nl ++ D.drop (i.toNat + B.length))
  else if c.Action = ActionDelete then
    let B := strings.Split c.Content nl
    let i := kmp.KMPSearch D B
    if i = -1 then none
    else some (D.take i.toNat ++ D.drop (i.toNat + B.length))
  else if c.Action = ActionMove then
    if c.DestinationAbove ≠ "" ∧ c.DestinationBelow ≠ "" then none
    else specMove D c
  else if c.Action = ActionInsert then
    if D.length = 0 then some (strings.Split c.Content nl)
    else if c.DestinationAbove ≠ "" ∧ c.DestinationBelow ≠ "" then none
    else
      let A := strings.Split c.destination nl
      let j := kmp.KMPSearch D A
      if j = -1 then none
      else
        let p := if c.DestinationBelow ≠ "" then j.toNat + A.length else j.toNat
        some (D.take p ++ strings.Split c.Content nl ++ D.drop p)
  else none

/-! ## `ApplyChange` and the caller's backing array

The caller passes `sourceLines` as a slice: a view of the first `n` elements
of a backing array whose length is the capacity of the slice. The definitions
below follow `ApplyChange` statement by statement once more and carry the
contents of that array along, so that what the caller's slice holds after the
call can be read off. -/

/-- Go `append(s[:a], ys...)` for a slice `s` that starts at element 0 of the
array `array`: when the `a + len(ys)` elements fit the capacity, `ys` is
copied into the array behind its first `a` elements and the result shares the
array (`true`); otherwise a new array is allocated and `array` is left as it
is (`false`). The first component is the array after the call. -/
def appendInto (array : List String) (a : Nat) (ys : List String) : List String × Bool :=
  if a + ys.length ≤ array.length then
    (array.take a ++ ys ++ array.drop (a + ys.length), true)
  else (array, false)

/-- Go `ApplyChange` on the slice `array[0:n]`, with the backing array carried
along. The result is `none` where the Go code would panic, and otherwise the
two returned values together with the contents of the caller's backing array
after the call. The second argument of every `append` is evaluated before the
copy takes place; `strings.Split` and `make` return fresh arrays. -/
def ApplyChangeInPlace (array : List String) (n : Nat) (change : Change) :
    Option ((List String × Option Error) × List String) :=
  let sourceLines := array.take n
  if change.Action = ActionReplace ∨ change.Action = ActionDelete ∨
      change.Action = ActionMove then
    let contentLines :=
      if change.Action ≠ ActionReplace then strings.Split change.Content nl
      else strings.Split change.Old nl
    let startIdx := kmp.KMPSearch sourceLines contentLines
    if startIdx = -1 then some (([], some Error.ErrCodeBlock), array)
    else
      let endIdx := startIdx + (contentLines.length : Int)
      if change.Action = ActionReplace then do
        let newLines := strings.Split change.New nl
        let before ← sliceTo sourceLines startIdx
        let after ← sliceFrom sourceLines endIdx
        let array1 := (appendInto array startIdx.toNat (newLines ++ after)).1
        some ((before ++ (newLines ++ after), none), array1)
      else if change.Action = ActionDelete then do
        let before ← sliceTo sourceLines startIdx
        let after ← sliceFrom sourceLines endIdx
        let array1 := (appendInto array startIdx.toNat after).1
        some ((before ++ after, none), array1)
      else
        let destination := change.DestinationAbove
        if destination ≠ "" ∧ change.DestinationBelow ≠ "" then
          some (([], some (Error.ErrInvalidChange msgBothDestinations)), array)
        else
          let destination :=
            if destination = "" then change.DestinationBelow else destination
          let destLines := strings.Split destination nl
          match FindLocation sourceLines destLines with
          | (_, some err) => some (([], some err), array)
          | (moveIdx, none) => do
            let moveIdx :=
              if change.DestinationBelow ≠ "" then moveIdx + (destLines.length : Int)
              else moveIdx
            let segment ← slice sourceLines startIdx endIdx
            let before ← sliceTo sourceLines startIdx
            let after ← sliceFrom sourceLines endIdx
            let removed := appendInto array startIdx.toNat after
            let sourceLines := before ++ after
            if (sourceLines.length : Int) < moveIdx then
              let array2 :=
                if removed.2 then (appendInto removed.1 sourceLines.length segment).1
                else removed.1
              some ((sourceLines ++ segment, none), array2)
            else do
              let front ← sliceTo sourceLines moveIdx
              let back ← sliceFrom sourceLines moveIdx
              let array2 :=
                if removed.2 then (appendInto removed.1 moveIdx.toNat (segment ++ back)).1
                else removed.1
              some ((front ++ (segment ++ back), none), array2)
  else if change.Action = ActionInsert then
    if sourceLines.length = 0 then
      some ((sourceLines ++ [change.Content], none),
        (appendInto array sourceLines.length [change.Content]).1)
    else
      let contentLines := strings.Split change.Content nl
      let destination := change.DestinationAbove
      if destination ≠ "" ∧ change.DestinationBelow ≠ "" then
        some (([], some (Error.ErrInvalidChange msgBothDestinations)), array)
      else
        let destination :=
          if destination = "" then change.DestinationBelow else destination
        let destLines := strings.Split destination nl
        match FindLocation sourceLines destLines with
        | (_, some err) => some (([], some err), array)
        | (insertIdx, none) => do
          let insertIdx :=
            if change.DestinationBelow ≠ "" then insertIdx + (destLines.length : Int)
            else insertIdx
          let front ← sliceTo sourceLines insertIdx
          let back ← sliceFrom sourceLines insertIdx
          let array1 := (appendInto array insertIdx.toNat (contentLines ++ back)).1
          some ((front ++ (contentLines ++ back), none), array1)
  else
    some (([], some (Error.ErrInvalidChange msgUnsupportedAction)), array)

/-- The contents of the caller's backing array after a call of `ApplyChange`
that returned `r`: the array as it was when an error is returned or when the
returned document does not fit the capacity; otherwise the returned document
followed by the elements of the array behind it. -/
def arrayAfter (array : List String) (r : List String × Option Error) : List String :=
  match r.2 with
  | some _ => array
  | none => if r.1.length ≤ array.length then r.1 ++ array.drop r.1.length else array

/-! ## `ApplyChange` over an arbitrary matcher

The statements of `FindLocation` and `ApplyChange` once more, with the search
function of package `kmp` as a parameter, for properties that hold for every
matcher that returns `-1` or a true match position. -/

/-- Go `FindLocation`, with the search function of package `kmp` taken as a
parameter. -/
def FindLocationWith (search : List String → List String → Int)
    (sourceLines locationLines : List String) : Int × Option Error :=
  if locationLines.length = 0 then (-1, some Error.ErrCodeBlock)
  else
    let l := search sourceLines locationLines
    if l = -1 then (-1, some Error.ErrCodeBlock)
    else (l, none)

/-- Go `ApplyChange`, with the search function of package `kmp` taken as a
parameter: the same statements as `ApplyChange`, `search` standing for
`kmp.KMPSearch`. The result is `none` where the Go code would panic on a slice
bound. -/
def ApplyChangeWith (search : List String → List String → Int)
    (sourceLines : List String) (change : Change) :
    Option (List String × Option Error) :=
  if change.Action = ActionReplace ∨ change.Action = ActionDelete ∨
      change.Action = ActionMove then
    let contentLines :=
      if change.Action ≠ ActionReplace then strings.Split change.Content nl
      else strings.Split change.Old nl
    let startIdx := search sourceLines contentLines
    if startIdx = -1 then some ([], some Error.ErrCodeBlock)
    else
      let endIdx := startIdx + (contentLines.length : Int)
      if change.Action = ActionReplace then do
        let newLines := strings.Split change.New nl
        let before ← sliceTo sourceLines startIdx
        let after ← sliceFrom sourceLines endIdx
        some (before ++ (newLines ++ after), none)
      else if change.Action = ActionDelete then do
        let before ← sliceTo sourceLines startIdx
        let after ← sliceFrom sourceLines endIdx
        some (before ++ after, none)
      else
        let destination := change.DestinationAbove
        if destination ≠ "" ∧ change.DestinationBelow ≠ "" then
          some ([], some (Error.ErrInvalidChange msgBothDestinations))
        else
          let destination :=
            if destination = "" then change.DestinationBelow else destination
          let destLines := strings.Split destination nl
          match FindLocationWith search sourceLines destLines with
          | (_, some err) => some ([], some err)
          | (moveIdx, none) => do
            let moveIdx :=
              if change.DestinationBelow ≠ "" then moveIdx + (destLines.length : Int)
              else moveIdx
            let segment ← slice sourceLines startIdx endIdx
            let before ← sliceTo sourceLines startIdx
            let after ← sliceFrom sourceLines endIdx
            let sourceLines := before ++ after
            if (sourceLines.length : Int) < moveIdx then
              some (sourceLines ++ segment, none)
            else do
              let front ← sliceTo sourceLines moveIdx
              let back ← sliceFrom sourceLines moveIdx
              some (front ++ (segment ++ back), none)
  else if change.Action = ActionInsert then
    if sourceLines.length = 0 then
      some (sourceLines ++ [change.Content], none)
    else
      let contentLines := strings.Split change.Content nl
      let destination := change.DestinationAbove
      if destination ≠ "" ∧ change.DestinationBelow ≠ "" then
        some ([], some (Error.ErrInvalidChange msgBothDestinations))
      else
        let destination :=
          if destination = "" then change.DestinationBelow else destination
        let destLines := strings.Split destination nl
        match FindLocationWith search sourceLines destLines with
        | (_, some err) => some ([], some err)
        | (insertIdx, none) => do
          let insertIdx :=
            if change.DestinationBelow ≠ "" then insertIdx + (destLines.length : Int)
            else insertIdx
          let front ← sliceTo sourceLines insertIdx
          let back ← sliceFrom sourceLines insertIdx
          some (front ++ (contentLines ++ back), none)
  else
    some ([], some (Error.ErrInvalidChange msgUnsupportedAction))

/-- The assumption on the matcher: it returns either `-1` or a position at
which the needle fully matches. -/
def MatcherSound (search : List String → List String → Int) : Prop :=
  ∀ H N, search H N = -1 ∨ ∃ i : Nat, search H N = (i : Int) ∧ kmp.OccursAt H N i

/-! ## Correctness of the matcher -/

namespace kmp

section ListFacts

variable {α : Type}

theorem take_succ_suffix_snoc (p t : List α) (c : α) (k : Nat) (hk : k < p.length) :
    p.take (k + 1) <:+ t ++ [c] ↔ p[k]? = some c ∧ p.take k <:+ t := by
  rw [List.take_succ, List.getElem?_eq_getElem hk]
  simp only [Option.toList, Option.some.injEq]
  rw [← List.reverse_prefix]
  simp only [List.reverse_append, List.reverse_cons, List.reverse_nil, List.nil_append,
    List.singleton_append, List.cons_prefix_cons, List.reverse_prefix]

theorem length_take_of_le (p : List α) (k : Nat) (hk : k ≤ p.length) :
    (p.take k).length = k := by
  simp [hk]

theorem tail_take_succ (p : List α) (j : Nat) :
    (p.take (j + 1)).tail = p.tail.take j := by
  cases p <;> simp

theorem suffix_tail_of_length_lt {a b : List α} (h : a <:+ b) (hl : a.length < b.length) :
    a <:+ b.tail := by
  cases b with
  | nil => simp at hl
  | cons x b =>
    rcases List.suffix_cons_iff.mp h with h | h
    · subst h; simp at hl
    · simpa using h

theorem suffix_of_suffix_tail {a b : List α} (h : a <:+ b.tail) : a <:+ b :=
  h.trans (List.tail_suffix b)

/-- A prefix of the needle that is a suffix of the text is no longer than the
text. -/
theorem le_length_of_take_suffix {p t : List α} {k : Nat} (hk : k ≤ p.length)
    (h : p.take k <:+ t) : k ≤ t.length := by
  have := h.length_le
  rwa [length_take_of_le p k hk] at this

theorem greatest_nil (p : List α) : Greatest p [] 0 := by
  refine ⟨Nat.zero_le _, by simp, ?_⟩
  intro k hk h
  have := le_length_of_take_suffix hk h
  simpa using this

/-- Every candidate state after reading one more element extends a candidate
state before it. -/
theorem candidate_le_succ {p t : List α} {j : Nat} (c : α) (hg : Greatest p t j) :
    ∀ k, k ≤ p.length → p.take k <:+ t ++ [c] → k ≤ j + 1 := by
  intro k hk h
  cases k with
  | zero => omega
  | succ k0 =>
    have h1 := (take_succ_suffix_snoc p t c k0 (by omega)).mp h
    have := hg.2.2 k0 (by omega) h1.2
    omega

end ListFacts

section Automaton

variable {α : Type} [DecidableEq α]

/-- The fall-back walk computes the next matcher state. The hypotheses say
that `j` is a candidate state for the text `t` read so far and that no
candidate for `t ++ [c]` is longer than `j + 1`. -/
theorem advance_greatest (p : List α) (lps : List Nat) (htab : TableOK p lps)
    (t : List α) (c : α) :
    ∀ fuel j, j < fuel → j < p.length → j ≤ lps.length → p.take j <:+ t →
      (∀ k, k ≤ p.length → p.take k <:+ t ++ [c] → k ≤ j + 1) →
      Greatest p (t ++ [c]) (advance p lps fuel j c) := by
  intro fuel
  induction fuel with
  | zero => intro j hj; omega
  | succ fuel ih =>
    intro j hfuel hjp hjl hsuf hmax
    unfold advance
    by_cases hc : p[j]? = some c
    · rw [if_pos hc]
      exact ⟨by omega, (take_succ_suffix_snoc p t c j hjp).mpr ⟨hc, hsuf⟩, hmax⟩
    · rw [if_neg hc]
      by_cases hj0 : j = 0
      · rw [if_pos hj0]
        subst hj0
        refine ⟨Nat.zero_le _, by simp, ?_⟩
        intro k hk h
        have hk1 := hmax k hk h
        by_contra hne
        have hk' : k = 1 := by omega
        subst hk'
        exact hc ((take_succ_suffix_snoc p t c 0 hjp).mp h).1
      · rw [if_neg hj0]
        have hent := htab (j - 1) (by omega)
        obtain ⟨hb1, hb2, hb3⟩ := hent
        have hlt : lps.getD (j - 1) 0 ≤ j - 1 := by
          have h1 := le_length_of_take_suffix hb1 hb2
          have h2 : (p.tail.take (j - 1)).length ≤ j - 1 := by
            rw [List.length_take]; exact Nat.min_le_left _ _
          omega
        have htail : (p.take j).tail = p.tail.take (j - 1) := by
          have := tail_take_succ p (j - 1)
          rwa [Nat.sub_add_cancel (by omega)] at this
        apply ih
        · omega
        · omega
        · omega
        · have h1 : p.take (lps.getD (j - 1) 0) <:+ p.take j := by
            apply suffix_of_suffix_tail
            rw [htail]; exact hb2
          exact h1.trans hsuf
        · intro k hk h
          cases k with
          | zero => omega
          | succ k0 =>
            have h1 := (take_succ_suffix_snoc p t c k0 (by omega)).mp h
            have hk0 : k0 ≤ j := by have := hmax _ hk h; omega
            have hk0j : k0 ≠ j := by
              intro he; subst he; exact hc h1.1
            have hsuf2 : p.take k0 <:+ p.take j := by
              apply List.suffix_of_suffix_length_le h1.2 hsuf
              rw [length_take_of_le p k0 (by omega), length_take_of_le p j (by omega)]
              exact hk0
            have hsuf3 : p.take k0 <:+ p.tail.take (j - 1) := by
              rw [← htail]
              apply suffix_tail_of_length_lt hsuf2
              rw [length_take_of_le p k0 (by omega), length_take_of_le p j (by omega)]
              omega
            have := hb3 k0 (by omega) hsuf3
            omega

/-- The failure-table loop keeps the table correct and ends with one entry per
needle element. -/
theorem computeLPSLoop_ok (p : List α) :
    ∀ (rest : List α) (lps : List Nat) (len : Nat),
      rest = p.drop lps.length → 1 ≤ lps.length → lps.length ≤ p.length →
      TableOK p lps → len = lps.getD (lps.length - 1) 0 →
      TableOK p (computeLPSLoop p rest lps len) ∧
        (computeLPSLoop p rest lps len).length = p.length := by
  intro rest
  induction rest with
  | nil =>
    intro lps len hrest h1 hle htab _
    refine ⟨htab, ?_⟩
    simp only [computeLPSLoop]
    have : (p.drop lps.length).length = 0 := by rw [← hrest]; rfl
    rw [List.length_drop] at this
    omega
  | cons c rest ih =>
    intro lps len hrest h1 hle htab hlen
    have hlt : lps.length < p.length := by
      have : (p.drop lps.length).length = rest.length + 1 := by rw [← hrest]; rfl
      rw [List.length_drop] at this
      omega
    have hc : p[lps.length]? = some c := by
      have : (p.drop lps.length)[0]? = some c := by rw [← hrest]; simp
      rwa [List.getElem?_drop] at this
    have hg : Greatest p (p.tail.take (lps.length - 1)) len := by
      rw [hlen]; exact htab _ (by omega)
    have hlenle : len ≤ lps.length - 1 := by
      have h2 := le_length_of_take_suffix hg.1 hg.2.1
      have h3 : (p.tail.take (lps.length - 1)).length ≤ lps.length - 1 := by
        rw [List.length_take]; exact Nat.min_le_left _ _
      omega
    have hstep := advance_greatest p lps htab (p.tail.take (lps.length - 1)) c
      (len + 1) len (by omega) (by omega) (by omega) hg.2.1 (candidate_le_succ c hg)
    have htext : p.tail.take (lps.length - 1) ++ [c] = p.tail.take lps.length := by
      have h4 : p.tail[lps.length - 1]? = some c := by
        rw [← List.drop_one, List.getElem?_drop]
        rwa [show 1 + (lps.length - 1) = lps.length by omega]
      have h5 := @List.take_succ _ p.tail (lps.length - 1)
      rw [h4, Nat.sub_add_cancel h1] at h5
      simpa using h5.symm
    rw [htext] at hstep
    simp only [computeLPSLoop]
    apply ih
    · rw [List.length_append, List.length_singleton, ← List.drop_drop, ← hrest]
      rfl
    · simp
    · simp; omega
    · intro k hk
      rw [List.length_append, List.length_singleton] at hk
      by_cases hkl : k < lps.length
      · rw [List.getD_append _ _ _ _ hkl]; exact htab k hkl
      · have hke : k = lps.length := by omega
        subst hke
        rw [List.getD_append_right _ _ _ _ (Nat.le_refl _)]
        simpa using hstep
    · simp

theorem computeLPS_ok (p : List α) :
    TableOK p (computeLPS p) ∧ (computeLPS p).length = p.length := by
  cases p with
  | nil => exact ⟨fun k hk => by simp [computeLPS] at hk, rfl⟩
  | cons a rest =>
    simp only [computeLPS]
    apply computeLPSLoop_ok (a :: rest) rest [0] 0
    · simp
    · simp
    · simp
    · intro k hk
      have hk0 : k = 0 := by simpa using hk
      subst hk0
      simpa using greatest_nil (a :: rest)
    · simp

/-- The search loop, started after reading `t` in state `j`, reports the first
position `n` past `t` at which the needle ends, or `-1` when the needle ends
nowhere past `t`. -/
theorem searchLoop_spec (p : List α) (lps : List Nat) (htab : TableOK p lps)
    (hlen : lps.length = p.length) :
    ∀ (rest t : List α) (j : Nat), Greatest p t j → j < p.length →
      (searchLoop p lps rest t.length j = -1 ∧
        ∀ n, t.length < n → n ≤ (t ++ rest).length → ¬ p <:+ (t ++ rest).take n) ∨
      (∃ n, t.length < n ∧ n ≤ (t ++ rest).length ∧ p <:+ (t ++ rest).take n ∧
        (∀ n1, t.length < n1 → n1 < n → ¬ p <:+ (t ++ rest).take n1) ∧
        searchLoop p lps rest t.length j = (n : Int) - (p.length : Int)) := by
  intro rest
  induction rest with
  | nil =>
    intro t j _ _
    left
    refine ⟨rfl, ?_⟩
    intro n h1 h2
    simp at h2
    omega
  | cons c rest ih =>
    intro t j hg hj
    have hstep := advance_greatest p lps htab t c (j + 1) j (by omega) hj (by omega)
      hg.2.1 (candidate_le_succ c hg)
    have htake : (t ++ c :: rest).take (t.length + 1) = t ++ [c] := by
      rw [show t ++ c :: rest = (t ++ [c]) ++ rest by simp]
      rw [List.take_left' (by simp)]
    simp only [searchLoop]
    by_cases hfull : advance p lps (j + 1) j c = p.length
    · rw [if_pos hfull]
      right
      refine ⟨t.length + 1, by omega, by simp, ?_, ?_, ?_⟩
      · rw [htake]
        have := hstep.2.1
        rw [hfull, List.take_length] at this
        exact this
      · intro n1 h1 h2; omega
      · rw [hfull]
    · rw [if_neg hfull]
      have hlt : advance p lps (j + 1) j c < p.length := by
        have := hstep.1; omega
      have hno : ¬ p <:+ t ++ [c] := by
        intro h
        have := hstep.2.2 p.length (Nat.le_refl _) (by rwa [List.take_length])
        omega
      have hih := ih (t ++ [c]) (advance p lps (j + 1) j c) hstep hlt
      have hl : (t ++ [c]).length = t.length + 1 := by simp
      have happ : t ++ [c] ++ rest = t ++ c :: rest := by simp
      rw [hl, happ] at hih
      rcases hih with ⟨hres, hnone⟩ | ⟨n, hn1, hn2, hn3, hn4, hres⟩
      · left
        refine ⟨hres, ?_⟩
        intro n h1 h2
        by_cases hn : n = t.length + 1
        · subst hn; rw [htake]; exact hno
        · exact hnone n (by omega) h2
      · right
        refine ⟨n, by omega, hn2, hn3, ?_, hres⟩
        intro n1 h1 h2
        by_cases hn : n1 = t.length + 1
        · subst hn; rw [htake]; exact hno
        · exact hn4 n1 (by omega) h2

end Automaton

section Occurrence

variable {α : Type}

/-- An occurrence starting at `i` is the same thing as the needle ending at
position `i + len(N)` of the haystack. -/
theorem occursAt_iff_suffix (H N : List α) (i : Nat) :
    OccursAt H N i ↔ i + N.length ≤ H.length ∧ N <:+ H.take (i + N.length) := by
  unfold OccursAt
  constructor
  · rintro ⟨h1, h2⟩
    refine ⟨h1, ?_⟩
    rw [List.take_add, h2]
    exact List.suffix_append _ _
  · rintro ⟨h1, h2⟩
    refine ⟨h1, ?_⟩
    rw [List.take_add] at h2
    have h3 : (H.drop i).take N.length <:+ H.take i ++ (H.drop i).take N.length :=
      List.suffix_append _ _
    have h4 : ((H.drop i).take N.length).length = N.length := by
      rw [List.length_take, List.length_drop]; omega
    have h5 := List.suffix_of_suffix_length_le h3 h2 (by omega)
    exact h5.eq_of_length h4

/-- Element-wise reading of an occurrence: every needle element equals the
haystack element at the corresponding offset. -/
theorem occursAt_iff_forall (H N : List α) (i : Nat) :
    OccursAt H N i ↔
      i + N.length ≤ H.length ∧ ∀ k, k < N.length → H[i + k]? = N[k]? := by
  unfold OccursAt
  constructor
  · rintro ⟨h1, h2⟩
    refine ⟨h1, ?_⟩
    intro k hk
    have : ((H.drop i).take N.length)[k]? = N[k]? := by rw [h2]
    rwa [List.getElem?_take_of_lt hk, List.getElem?_drop] at this
  · rintro ⟨h1, h2⟩
    refine ⟨h1, ?_⟩
    apply List.ext_getElem?
    intro k
    by_cases hk : k < N.length
    · rw [List.getElem?_take_of_lt hk, List.getElem?_drop]; exact h2 k hk
    · rw [List.getElem?_eq_none (by simp; omega), List.getElem?_eq_none (by omega)]

/-- The first occurrence is unique. -/
theorem FirstOccurrence.unique {H N : List α} {i j : Nat}
    (hi : FirstOccurrence H N i) (hj : FirstOccurrence H N j) : i = j :=
  Nat.le_antisymm (hi.2 j hj.1) (hj.2 i hi.1)

end Occurrence

section Search

variable {α : Type} [DecidableEq α]

/-- Contract of the matcher on a non-empty needle: `-1` exactly when the needle
occurs nowhere, and otherwise the smallest start index of an occurrence. -/
theorem KMPSearch_spec (H N : List α) (hN : N ≠ []) :
    (KMPSearch H N = -1 ∧ ∀ i, ¬ OccursAt H N i) ∨
    (∃ i : Nat, KMPSearch H N = (i : Int) ∧ OccursAt H N i ∧
      ∀ i1, OccursAt H N i1 → i ≤ i1) := by
  have hpos : 0 < N.length := List.length_pos.mpr hN
  obtain ⟨htab, hlen⟩ := computeLPS_ok N
  have hloop := searchLoop_spec N (computeLPS N) htab hlen H [] 0 (greatest_nil N) hpos
  simp only [List.length_nil, List.nil_append] at hloop
  have hdef : KMPSearch H N = searchLoop N (computeLPS N) H 0 0 := by
    unfold KMPSearch; rw [if_neg (by omega)]
  rw [hdef]
  rcases hloop with ⟨hres, hnone⟩ | ⟨n, hn1, hn2, hn3, hn4, hres⟩
  · left
    refine ⟨hres, ?_⟩
    intro i hocc
    obtain ⟨h1, h2⟩ := (occursAt_iff_suffix H N i).mp hocc
    exact hnone (i + N.length) (by omega) h1 h2
  · right
    have hle : N.length ≤ n := by
      have := hn3.length_le
      rw [List.length_take] at this
      omega
    refine ⟨n - N.length, ?_, ?_, ?_⟩
    · rw [hres]; omega
    · apply (occursAt_iff_suffix H N (n - N.length)).mpr
      rw [Nat.sub_add_cancel hle]
      exact ⟨hn2, hn3⟩
    · intro i1 hocc
      obtain ⟨h1, h2⟩ := (occursAt_iff_suffix H N i1).mp hocc
      by_contra hlt
      exact hn4 (i1 + N.length) (by omega) (by omega) h2

/-- A needle that occurs somewhere is found at its first occurrence. -/
theorem KMPSearch_of_occurs (H N : List α) (hN : N ≠ []) (hocc : ∃ k, OccursAt H N k) :
    ∃ i : Nat, KMPSearch H N = (i : Int) ∧ FirstOccurrence H N i := by
  rcases KMPSearch_spec H N hN with ⟨_, hnone⟩ | ⟨i, h1, h2, h3⟩
  · obtain ⟨k, hk⟩ := hocc
    exact absurd hk (hnone k)
  · exact ⟨i, h1, h2, h3⟩

/-- At a first occurrence the matcher returns exactly that index. -/
theorem KMPSearch_of_first (H N : List α) (hN : N ≠ []) (i : Nat)
    (hi : FirstOccurrence H N i) : KMPSearch H N = (i : Int) := by
  obtain ⟨j, hj, hfirst⟩ := KMPSearch_of_occurs H N hN ⟨i, hi.1⟩
  rw [hj, hfirst.unique hi]

/-- A needle that occurs nowhere is reported as `-1`. -/
theorem KMPSearch_of_not_occurs (H N : List α) (hno : ∀ k, ¬ OccursAt H N k) :
    KMPSearch H N = -1 := by
  by_cases hN : N = []
  · subst hN; rfl
  · rcases KMPSearch_spec H N hN with ⟨h, _⟩ | ⟨i, _, h2, _⟩
    · exact h
    · exact absurd h2 (hno i)

end Search

end kmp

/-! ## Facts about `strings.Split` and slice expressions -/

theorem strings.splitChars_ne_nil (sep : Char) (cs : List Char) :
    strings.splitChars sep cs ≠ [] := by
  cases cs with
  | nil => simp [strings.splitChars]
  | cons c cs =>
    unfold strings.splitChars
    split
    · simp
    · split <;> simp

theorem strings.Split_ne_nil (s : String) (sep : Char) : strings.Split s sep ≠ [] := by
  unfold strings.Split
  simpa using strings.splitChars_ne_nil sep s.data

theorem sliceTo_natCast {α : Type} (s : List α) (n : Nat) (h : n ≤ s.length) :
    sliceTo s (n : Int) = some (s.take n) := by
  unfold sliceTo
  rw [if_pos ⟨by omega, by omega⟩]
  simp

theorem sliceFrom_natCast {α : Type} (s : List α) (n : Nat) (h : n ≤ s.length) :
    sliceFrom s (n : Int) = some (s.drop n) := by
  unfold sliceFrom
  rw [if_pos ⟨by omega, by omega⟩]
  simp

theorem slice_natCast {α : Type} (s : List α) (a b : Nat) (hab : a ≤ b) (h : b ≤ s.length) :
    slice s (a : Int) (b : Int) = some ((s.take b).drop a) := by
  unfold slice
  rw [if_pos ⟨by omega, by omega, by omega⟩]
  simp

/-! ## `FindLocation` -/

/-- `FindLocation` on a non-empty block at its first occurrence. -/
theorem FindLocation_of_first (H N : List String) (hN : N ≠ []) (i : Nat)
    (hi : kmp.FirstOccurrence H N i) : FindLocation H N = ((i : Int), none) := by
  unfold FindLocation
  have hlen : N.length ≠ 0 := fun h => hN (List.length_eq_zero.mp h)
  rw [if_neg hlen]
  simp only [kmp.KMPSearch_of_first H N hN i hi]
  rw [if_neg (by omega)]

/-- `FindLocation` on a block that occurs nowhere. -/
theorem FindLocation_of_not_occurs (H N : List String) (hno : ∀ k, ¬ kmp.OccursAt H N k) :
    FindLocation H N = (-1, some Error.ErrCodeBlock) := by
  unfold FindLocation
  simp only [kmp.KMPSearch_of_not_occurs H N hno]
  simp

/-- The two outcomes of `FindLocation` on a non-empty block. -/
theorem FindLocation_cases (H N : List String) (hN : N ≠ []) :
    (FindLocation H N = (-1, some Error.ErrCodeBlock) ∧ ∀ k, ¬ kmp.OccursAt H N k) ∨
    (∃ i : Nat, FindLocation H N = ((i : Int), none) ∧ kmp.FirstOccurrence H N i) := by
  by_cases hocc : ∃ k, kmp.OccursAt H N k
  · right
    obtain ⟨i, _, hfirst⟩ := kmp.KMPSearch_of_occurs H N hN hocc
    exact ⟨i, FindLocation_of_first H N hN i hfirst, hfirst⟩
  · left
    have hno : ∀ k, ¬ kmp.OccursAt H N k := fun k hk => hocc ⟨k, hk⟩
    exact ⟨FindLocation_of_not_occurs H N hno, hno⟩

/-! ## `ApplyChange`, one action at a time -/

/-- The `ActionReplace` branch. -/
theorem ApplyChange_replace (D : List String) (c : Change) (h : c.Action = ActionReplace) :
    ApplyChange D c =
      if kmp.KMPSearch D (strings.Split c.Old nl) = -1 then
        some ([], some Error.ErrCodeBlock)
      else
        (sliceTo D (kmp.KMPSearch D (strings.Split c.Old nl))).bind fun before =>
        (sliceFrom D (kmp.KMPSearch D (strings.Split c.Old nl) +
            ((strings.Split c.Old nl).length : Int))).bind fun after =>
        some (before ++ (strings.Split c.New nl ++ after), none) := by
  unfold ApplyChange
  simp only [h, true_or, if_true, ne_eq, not_true_eq_false, if_false]
  rfl

/-- The `ActionDelete` branch. -/
theorem ApplyChange_delete (D : List String) (c : Change) (h : c.Action = ActionDelete) :
    ApplyChange D c =
      if kmp.KMPSearch D (strings.Split c.Content nl) = -1 then
        some ([], some Error.ErrCodeBlock)
      else
        (sliceTo D (kmp.KMPSearch D (strings.Split c.Content nl))).bind fun before =>
        (sliceFrom D (kmp.KMPSearch D (strings.Split c.Content nl) +
            ((strings.Split c.Content nl).length : Int))).bind fun after =>
        some (before ++ after, none) := by
  have h1 : ActionDelete ≠ ActionReplace := by decide
  unfold ApplyChange
  simp only [h, true_or, or_true, if_true, ne_eq, h1, not_false_eq_true, if_false]
  rfl

/-- The `ActionMove` branch. The destination text is `destination_above` when
it is set and `destination_below` otherwise. -/
theorem ApplyChange_move (D : List String) (c : Change) (h : c.Action = ActionMove) :
    ApplyChange D c =
      (let contentLines := strings.Split c.Content nl
      let startIdx := kmp.KMPSearch D contentLines
      if startIdx = -1 then some ([], some Error.ErrCodeBlock)
      else
        let endIdx := startIdx + (contentLines.length : Int)
        if c.DestinationAbove ≠ "" ∧ c.DestinationBelow ≠ "" then
          some ([], some (Error.ErrInvalidChange msgBothDestinations))
        else
          let destLines := strings.Split c.destination nl
          match FindLocation D destLines with
          | (_, some err) => some ([], some err)
          | (moveIdx, none) => do
            let moveIdx :=
              if c.DestinationBelow ≠ "" then moveIdx + (destLines.length : Int)
              else moveIdx
            let segment ← slice D startIdx endIdx
            let before ← sliceTo D startIdx
            let after ← sliceFrom D endIdx
            let sourceLines := before ++ after
            if (sourceLines.length : Int) < moveIdx then
              some (sourceLines ++ segment, none)
            else do
              let front ← sliceTo sourceLines moveIdx
              let back ← sliceFrom sourceLines moveIdx
              some (front ++ (segment ++ back), none)) := by
  have h1 : ActionMove ≠ ActionReplace := by decide
  have h2 : ActionMove ≠ ActionDelete := by decide
  unfold ApplyChange
  simp only [h, or_true, if_true, ne_eq, h1, h2, not_false_eq_true, if_false,
    Change.destination]

/-- The `case ActionInsert` branch. -/
theorem ApplyChange_insert (D : List String) (c : Change) (h : c.Action = ActionInsert) :
    ApplyChange D c =
      (if D.length = 0 then some (D ++ [c.Content], none)
      else
        let contentLines := strings.Split c.Content nl
        if c.DestinationAbove ≠ "" ∧ c.DestinationBelow ≠ "" then
          some ([], some (Error.ErrInvalidChange msgBothDestinations))
        else
          let destLines := strings.Split c.destination nl
          match FindLocation D destLines with
          | (_, some err) => some ([], some err)
          | (insertIdx, none) => do
            let insertIdx :=
              if c.DestinationBelow ≠ "" then insertIdx + (destLines.length : Int)
              else insertIdx
            let front ← sliceTo D insertIdx
            let back ← sliceFrom D insertIdx
            some (front ++ (contentLines ++ back), none)) := by
  have h1 : ActionInsert ≠ ActionReplace := by decide
  have h2 : ActionInsert ≠ ActionDelete := by decide
  have h3 : ActionInsert ≠ ActionMove := by decide
  unfold ApplyChange
  simp only [h, h1, h2, h3, or_self, if_true, if_false, Change.destination]

/-- An insert on a non-empty document whose destination block is found at its
first occurrence `j`: the content lines are spliced in at `j`, or at
`j + |A|` when `destination_below` is set. -/
theorem ApplyChange_insert_found (D : List String) (c : Change)
    (hact : c.Action = ActionInsert) (hD : D ≠ [])
    (hnotboth : ¬ (c.DestinationAbove ≠ "" ∧ c.DestinationBelow ≠ ""))
    (j : Nat) (hfirst : kmp.FirstOccurrence D (strings.Split c.destination nl) j) :
    ApplyChange D c =
      some (D.take (if c.DestinationBelow ≠ "" then
              j + (strings.Split c.destination nl).length else j) ++
            strings.Split c.Content nl ++
            D.drop (if c.DestinationBelow ≠ "" then
              j + (strings.Split c.destination nl).length else j), none) := by
  have hfind := FindLocation_of_first D _ (strings.Split_ne_nil c.destination nl) j hfirst
  have hlen : D.length ≠ 0 := fun h => hD (List.length_eq_zero.mp h)
  have hbound := hfirst.1.1
  rw [ApplyChange_insert D c hact, if_neg hlen]
  simp only [if_neg hnotboth, hfind]
  by_cases hb : c.DestinationBelow ≠ ""
  · simp only [if_pos hb]
    rw [← Nat.cast_add, sliceTo_natCast D _ hbound, sliceFrom_natCast D _ hbound]
    simp
  · simp only [if_neg hb]
    rw [sliceTo_natCast D j (by omega), sliceFrom_natCast D j (by omega)]
    simp

/-- After the block was found at its first occurrence `i`, the two slice
expressions around it are in range. -/
theorem slices_around_block (D B : List String) (i : Nat) (hocc : kmp.OccursAt D B i) :
    sliceTo D (i : Int) = some (D.take i) ∧
    sliceFrom D ((i : Int) + (B.length : Int)) = some (D.drop (i + B.length)) := by
  have hb := hocc.1
  refine ⟨sliceTo_natCast D i (by omega), ?_⟩
  have := sliceFrom_natCast D (i + B.length) hb
  rwa [Nat.cast_add] at this

/-! ## Replace and delete -/

/-- C1: a replace change whose block `split(old)` occurs in the document
succeeds and returns `D[0:i] ++ split(new) ++ D[i+|B|:]`, where `i` is the
smallest index at which the block occurs. -/
theorem replace_rewrites_first_occurrence (D : List String) (c : Change)
    (hact : c.Action = ActionReplace)
    (hocc : ∃ k, kmp.OccursAt D (strings.Split c.Old nl) k) :
    ∃ i, kmp.FirstOccurrence D (strings.Split c.Old nl) i ∧
      ApplyChange D c =
        some (D.take i ++ strings.Split c.New nl ++
          D.drop (i + (strings.Split c.Old nl).length), none) := by
  obtain ⟨i, hres, hfirst⟩ :=
    kmp.KMPSearch_of_occurs D _ (strings.Split_ne_nil c.Old nl) hocc
  refine ⟨i, hfirst, ?_⟩
  obtain ⟨h1, h2⟩ := slices_around_block D _ i hfirst.1
  rw [ApplyChange_replace D c hact, hres, if_neg (by omega), h1, h2]
  simp

/-- Witness for C1: the multi-line replacement of the test suite. -/
theorem replace_rewrites_first_occurrence_witness :
    (∃ k, kmp.OccursAt ["a", "b", "c"] (strings.Split "a\nb" nl) k) ∧
    ∃ i, kmp.FirstOccurrence ["a", "b", "c"] (strings.Split "a\nb" nl) i ∧
      ApplyChange ["a", "b", "c"] ⟨"", ActionReplace, "a\nb", "x\ny\nz", "", "", ""⟩ =
        some (List.take i ["a", "b", "c"] ++ strings.Split "x\ny\nz" nl ++
          List.drop (i + (strings.Split "a\nb" nl).length) ["a", "b", "c"], none) :=
  ⟨⟨0, by decide⟩,
    replace_rewrites_first_occurrence ["a", "b", "c"]
      ⟨"", ActionReplace, "a\nb", "x\ny\nz", "", "", ""⟩ rfl ⟨0, by decide⟩⟩

/-- C8: a delete change whose block `split(content)` occurs in the document
succeeds and returns `D[0:i] ++ D[i+|B|:]`, where `i` is the smallest index at
which the block occurs: the lines before and after are kept in order. -/
theorem delete_removes_first_occurrence (D : List String) (c : Change)
    (hact : c.Action = ActionDelete)
    (hocc : ∃ k, kmp.OccursAt D (strings.Split c.Content nl) k) :
    ∃ i, kmp.FirstOccurrence D (strings.Split c.Content nl) i ∧
      ApplyChange D c =
        some (D.take i ++ D.drop (i + (strings.Split c.Content nl).length), none) := by
  obtain ⟨i, hres, hfirst⟩ :=
    kmp.KMPSearch_of_occurs D _ (strings.Split_ne_nil c.Content nl) hocc
  refine ⟨i, hfirst, ?_⟩
  obtain ⟨h1, h2⟩ := slices_around_block D _ i hfirst.1
  rw [ApplyChange_delete D c hact, hres, if_neg (by omega), h1, h2]
  simp

/-- Witness for C8: deleting the empty block removes the first empty line. -/
theorem delete_removes_first_occurrence_witness :
    (∃ k, kmp.OccursAt ["line1", "", "line3", ""] (strings.Split "" nl) k) ∧
    ∃ i, kmp.FirstOccurrence ["line1", "", "line3", ""] (strings.Split "" nl) i ∧
      ApplyChange ["line1", "", "line3", ""] ⟨"", ActionDelete, "", "", "", "", ""⟩ =
        some (List.take i ["line1", "", "line3", ""] ++
          List.drop (i + (strings.Split "" nl).length) ["line1", "", "line3", ""], none) :=
  ⟨⟨1, by decide⟩,
    delete_removes_first_occurrence ["line1", "", "line3", ""]
      ⟨"", ActionDelete, "", "", "", "", ""⟩ rfl ⟨1, by decide⟩⟩

/-! ## Insert -/

/-- C10: an insert change on a non-empty document with exactly one
destination field set, whose anchor block `A` occurs in the document with
first occurrence `j`, succeeds and returns `D[0:p] ++ split(content) ++ D[p:]`
with `p = j` for `destination_above` and `p = j + |A|` for
`destination_below`; nothing is removed and the result has length
`|D| + |split(content)|`. -/
theorem insert_splices_at_anchor (D : List String) (c : Change)
    (hact : c.Action = ActionInsert) (hD : D ≠ [])
    (hone : (c.DestinationAbove ≠ "" ∧ c.DestinationBelow = "") ∨
      (c.DestinationAbove = "" ∧ c.DestinationBelow ≠ ""))
    (hocc : ∃ k, kmp.OccursAt D (strings.Split c.destination nl) k) :
    ∃ j p, kmp.FirstOccurrence D (strings.Split c.destination nl) j ∧
      (c.DestinationAbove ≠ "" → p = j) ∧
      (c.DestinationBelow ≠ "" → p = j + (strings.Split c.destination nl).length) ∧
      p ≤ D.length ∧
      ApplyChange D c =
        some (D.take p ++ strings.Split c.Content nl ++ D.drop p, none) ∧
      (D.take p ++ strings.Split c.Content nl ++ D.drop p).length =
        D.length + (strings.Split c.Content nl).length := by
  obtain ⟨j, _, hfirst⟩ :=
    kmp.KMPSearch_of_occurs D _ (strings.Split_ne_nil c.destination nl) hocc
  have hbound := hfirst.1.1
  have hnotboth : ¬ (c.DestinationAbove ≠ "" ∧ c.DestinationBelow ≠ "") := by
    rcases hone with ⟨_, h⟩ | ⟨h, _⟩
    · exact fun hb => hb.2 h
    · exact fun hb => hb.1 h
  have hlength : ∀ p, p ≤ D.length →
      (D.take p ++ strings.Split c.Content nl ++ D.drop p).length =
        D.length + (strings.Split c.Content nl).length := by
    intro p hp
    simp only [List.length_append, List.length_take, List.length_drop]
    omega
  have hres := ApplyChange_insert_found D c hact hD hnotboth j hfirst
  rcases hone with ⟨ha, hb⟩ | ⟨ha, hb⟩
  · rw [if_neg (by simp [hb])] at hres
    exact ⟨j, j, hfirst, fun _ => rfl, fun h => absurd hb h, by omega, hres,
      hlength j (by omega)⟩
  · rw [if_pos hb] at hres
    exact ⟨j, j + (strings.Split c.destination nl).length, hfirst, fun h => absurd ha h,
      fun _ => rfl, hbound, hres, hlength _ hbound⟩

/-- Witness for C10: inserting two lines below the anchor `a`. -/
theorem insert_splices_at_anchor_witness :
    (∃ k, kmp.OccursAt ["a", "c"]
      (strings.Split (Change.destination ⟨"", ActionInsert, "", "", "x\ny", "", "a"⟩) nl) k) ∧
    ∃ j p, kmp.FirstOccurrence ["a", "c"]
        (strings.Split (Change.destination ⟨"", ActionInsert, "", "", "x\ny", "", "a"⟩) nl) j ∧
      (("" : String) ≠ "" → p = j) ∧
      (("a" : String) ≠ "" → p = j +
        (strings.Split (Change.destination ⟨"", ActionInsert, "", "", "x\ny", "", "a"⟩) nl).length) ∧
      p ≤ List.length ["a", "c"] ∧
      ApplyChange ["a", "c"] ⟨"", ActionInsert, "", "", "x\ny", "", "a"⟩ =
        some (List.take p ["a", "c"] ++ strings.Split "x\ny" nl ++ List.drop p ["a", "c"], none) ∧
      (List.take p ["a", "c"] ++ strings.Split "x\ny" nl ++ List.drop p ["a", "c"]).length =
        List.length ["a", "c"] + (strings.Split "x\ny" nl).length :=
  ⟨⟨0, by decide⟩,
    insert_splices_at_anchor ["a", "c"] ⟨"", ActionInsert, "", "", "x\ny", "", "a"⟩ rfl
      (by decide) (Or.inr ⟨rfl, by decide⟩) ⟨0, by decide⟩⟩

/-! ## Move -/

/-- The segment that a move cuts out is the content block itself. -/
theorem segment_eq_block (D X : List String) (i : Nat) (hocc : kmp.OccursAt D X i) :
    slice D (i : Int) ((i : Int) + (X.length : Int)) = some X := by
  have hb := hocc.1
  rw [← Nat.cast_add, slice_natCast D i (i + X.length) (by omega) hb, List.drop_take,
    Nat.add_sub_cancel_left, hocc.2]

/-- What the `ActionMove` branch computes when both blocks are found: the
content block is cut out at its first occurrence `i`, giving `D1`; the anchor
is located in `D`, the document before the removal, at its first occurrence
`j`; the block goes into `D1` at index `m` (`j`, or `j + |A|` for
`destination_below`), or at the end of `D1` when `m` exceeds its length. -/
theorem ApplyChange_move_found (D : List String) (c : Change)
    (hact : c.Action = ActionMove)
    (hnotboth : ¬ (c.DestinationAbove ≠ "" ∧ c.DestinationBelow ≠ ""))
    (i j : Nat)
    (hi : kmp.FirstOccurrence D (strings.Split c.Content nl) i)
    (hj : kmp.FirstOccurrence D (strings.Split c.destination nl) j) :
    ApplyChange D c =
      some (
        if (D.take i ++ D.drop (i + (strings.Split c.Content nl).length)).length <
            (if c.DestinationBelow ≠ "" then
              j + (strings.Split c.destination nl).length else j) then
          (D.take i ++ D.drop (i + (strings.Split c.Content nl).length)) ++
            strings.Split c.Content nl
        else
          (D.take i ++ D.drop (i + (strings.Split c.Content nl).length)).take
              (if c.DestinationBelow ≠ "" then
                j + (strings.Split c.destination nl).length else j) ++
            (strings.Split c.Content nl ++
              (D.take i ++ D.drop (i + (strings.Split c.Content nl).length)).drop
                (if c.DestinationBelow ≠ "" then
                  j + (strings.Split c.destination nl).length else j)), none) := by
  have hsearch := kmp.KMPSearch_of_first D _ (strings.Split_ne_nil c.Content nl) i hi
  have hfind := FindLocation_of_first D _ (strings.Split_ne_nil c.destination nl) j hj
  obtain ⟨h1, h2⟩ := slices_around_block D _ i hi.1
  have h3 := segment_eq_block D _ i hi.1
  rw [ApplyChange_move D c hact]
  simp only [hsearch, hfind, if_neg hnotboth, h1, h2, h3]
  rw [if_neg (by omega)]
  simp only [Option.bind_eq_bind, Option.some_bind]
  have hm : (if c.DestinationBelow ≠ "" then
        (j : Int) + ((strings.Split c.destination nl).length : Int) else (j : Int)) =
      ((if c.DestinationBelow ≠ "" then
        j + (strings.Split c.destination nl).length else j : Nat) : Int) := by
    split <;> simp
  rw [hm]
  generalize (if c.DestinationBelow ≠ "" then
    j + (strings.Split c.destination nl).length else j) = m
  generalize D.take i ++ D.drop (i + (strings.Split c.Content nl).length) = D1
  by_cases hlt : D1.length < m
  · rw [if_pos (by omega), if_pos hlt]
  · rw [if_neg (by omega), if_neg hlt, sliceTo_natCast D1 m (by omega),
      sliceFrom_natCast D1 m (by omega)]
    rfl

/-- A move whose content block occurs nowhere fails with the block-not-found
error, before the destination fields are looked at. -/
theorem ApplyChange_move_content_missing (D : List String) (c : Change)
    (hact : c.Action = ActionMove)
    (hno : ∀ k, ¬ kmp.OccursAt D (strings.Split c.Content nl) k) :
    ApplyChange D c = some ([], some Error.ErrCodeBlock) := by
  rw [ApplyChange_move D c hact]
  simp only [kmp.KMPSearch_of_not_occurs D _ hno, if_true]

/-- A move whose content block is found and whose two destination fields are
both set fails with `ErrInvalidChange`. -/
theorem ApplyChange_move_both (D : List String) (c : Change)
    (hact : c.Action = ActionMove)
    (hocc : ∃ k, kmp.OccursAt D (strings.Split c.Content nl) k)
    (hboth : c.DestinationAbove ≠ "" ∧ c.DestinationBelow ≠ "") :
    ApplyChange D c = some ([], some (Error.ErrInvalidChange msgBothDestinations)) := by
  obtain ⟨i, hres, _⟩ :=
    kmp.KMPSearch_of_occurs D _ (strings.Split_ne_nil c.Content nl) hocc
  rw [ApplyChange_move D c hact]
  simp only [hres, if_pos hboth]
  rw [if_neg (by omega)]

/-- A move whose content block is found but whose anchor block occurs nowhere
in the document fails with the block-not-found error. -/
theorem ApplyChange_move_anchor_missing (D : List String) (c : Change)
    (hact : c.Action = ActionMove)
    (hocc : ∃ k, kmp.OccursAt D (strings.Split c.Content nl) k)
    (hnotboth : ¬ (c.DestinationAbove ≠ "" ∧ c.DestinationBelow ≠ ""))
    (hno : ∀ k, ¬ kmp.OccursAt D (strings.Split c.destination nl) k) :
    ApplyChange D c = some ([], some Error.ErrCodeBlock) := by
  obtain ⟨i, hres, _⟩ :=
    kmp.KMPSearch_of_occurs D _ (strings.Split_ne_nil c.Content nl) hocc
  rw [ApplyChange_move D c hact]
  simp only [hres, if_neg hnotboth, FindLocation_of_not_occurs D _ hno]
  rw [if_neg (by omega)]

/-- Cutting a block out of a document and putting it back anywhere gives a
rearrangement of the document. -/
theorem perm_of_cut_and_paste (D X : List String) (i m : Nat) (hocc : kmp.OccursAt D X i) :
    ((D.take i ++ D.drop (i + X.length)) ++ X).Perm D ∧
    ((D.take i ++ D.drop (i + X.length)).take m ++
      (X ++ (D.take i ++ D.drop (i + X.length)).drop m)).Perm D := by
  have hD : D.take i ++ (X ++ D.drop (i + X.length)) = D := by
    have h1 : X ++ D.drop (i + X.length) = D.drop i := by
      have h0 := List.take_append_drop X.length (D.drop i)
      rwa [hocc.2, List.drop_drop] at h0
    rw [h1, List.take_append_drop]
  have hfirst : ((D.take i ++ D.drop (i + X.length)) ++ X).Perm D := by
    have h2 : ((D.take i ++ D.drop (i + X.length)) ++ X).Perm
        (D.take i ++ (X ++ D.drop (i + X.length))) := by
      rw [List.append_assoc]
      exact List.Perm.append_left _ List.perm_append_comm
    rwa [hD] at h2
  refine ⟨hfirst, ?_⟩
  generalize D.take i ++ D.drop (i + X.length) = D1 at hfirst ⊢
  have h3 : (D1.take m ++ (X ++ D1.drop m)).Perm (D1 ++ X) := by
    have h4 : (D1.take m ++ (X ++ D1.drop m)).Perm (D1.take m ++ (D1.drop m ++ X)) :=
      List.Perm.append_left _ List.perm_append_comm
    have h5 : D1.take m ++ (D1.drop m ++ X) = D1 ++ X := by
      rw [← List.append_assoc, List.take_append_drop]
    rwa [h5] at h4
  exact h3.trans hfirst

/-- C9 (move conservation): whenever a move change succeeds, the returned
document is a permutation of the input document: same multiset of lines,
hence same length. -/
theorem move_conserves_lines (D : List String) (c : Change) (R : List String)
    (hact : c.Action = ActionMove) (hres : ApplyChange D c = some (R, none)) :
    R.Perm D ∧ R.length = D.length := by
  suffices h : R.Perm D from ⟨h, h.length_eq⟩
  by_cases hocc : ∃ k, kmp.OccursAt D (strings.Split c.Content nl) k
  · by_cases hboth : c.DestinationAbove ≠ "" ∧ c.DestinationBelow ≠ ""
    · rw [ApplyChange_move_both D c hact hocc hboth] at hres
      simp at hres
    · rcases FindLocation_cases D _ (strings.Split_ne_nil c.destination nl) with
        ⟨_, hno⟩ | ⟨j, _, hj⟩
      · rw [ApplyChange_move_anchor_missing D c hact hocc hboth hno] at hres
        simp at hres
      · obtain ⟨i, _, hi⟩ :=
          kmp.KMPSearch_of_occurs D _ (strings.Split_ne_nil c.Content nl) hocc
        rw [ApplyChange_move_found D c hact hboth i j hi hj] at hres
        simp only [Option.some.injEq, Prod.mk.injEq, and_true] at hres
        rw [← hres]
        split_ifs
        all_goals
          first
          | exact (perm_of_cut_and_paste D _ i 0 hi.1).1
          | exact (perm_of_cut_and_paste D _ i _ hi.1).2
  · have hno : ∀ k, ¬ kmp.OccursAt D (strings.Split c.Content nl) k :=
      fun k hk => hocc ⟨k, hk⟩
    rw [ApplyChange_move_content_missing D c hact hno] at hres
    simp at hres

/-- Witness for C9: moving `x` below `a` in `[x, a, b]`. -/
theorem move_conserves_lines_witness :
    ApplyChange ["x", "a", "b"] ⟨"", ActionMove, "", "", "x", "", "a"⟩ =
      some (["a", "b", "x"], none) ∧
    List.Perm ["a", "b", "x"] ["x", "a", "b"] ∧
    List.length ["a", "b", "x"] = List.length ["x", "a", "b"] :=
  ⟨by decide,
    move_conserves_lines ["x", "a", "b"] ⟨"", ActionMove, "", "", "x", "", "a"⟩
      ["a", "b", "x"] rfl (by decide)⟩

/-- C2: on the document `[x, a, b]`, moving the block `x` with
`destination_below = a` (both blocks occur in the document) succeeds with
`[a, b, x]`: in the result the block `x` does not follow any occurrence of
the anchor `a`. The anchor index was taken before the removal. -/
theorem move_below_misses_anchor :
    kmp.OccursAt ["x", "a", "b"] (strings.Split "x" nl) 0 ∧
    kmp.OccursAt ["x", "a", "b"] (strings.Split "a" nl) 1 ∧
    ApplyChange ["x", "a", "b"] ⟨"", ActionMove, "", "", "x", "", "a"⟩ =
      some (["a", "b", "x"], none) ∧
    ¬ ∃ k, kmp.OccursAt ["a", "b", "x"] (strings.Split "a" nl) k ∧
      kmp.OccursAt ["a", "b", "x"] (strings.Split "x" nl)
        (k + (strings.Split "a" nl).length) := by
  refine ⟨by decide, by decide, by decide, ?_⟩
  rintro ⟨k, h1, h2⟩
  have hk : k < 3 := by
    have := h1.1
    simp only [List.length_cons, List.length_nil] at this
    have hl : (strings.Split "a" nl).length = 1 := by decide
    omega
  interval_cases k
  · exact absurd h2 (by decide)
  · exact absurd h1 (by decide)
  · exact absurd h1 (by decide)

/-- C3: on the document `[x, a, b]`, moving the block `x` with
`destination_above = b`: removing first and locating the anchor in the
post-removal document `[a, b]` gives `[a, x, b]`, whereas `ApplyChange`
returns `[a, b, x]`, having located the anchor in the document before the
removal. -/
theorem move_anchor_not_relocated :
    specMove ["x", "a", "b"] ⟨"", ActionMove, "", "", "x", "b", ""⟩ =
      some ["a", "x", "b"] ∧
    ApplyChange ["x", "a", "b"] ⟨"", ActionMove, "", "", "x", "b", ""⟩ =
      some (["a", "b", "x"], none) := by
  exact ⟨by decide, by decide⟩

/-- An insert into the empty document returns the content as one element;
the destination fields are not looked at. -/
theorem ApplyChange_insert_empty (c : Change) (hact : c.Action = ActionInsert) :
    ApplyChange [] c = some ([c.Content], none) := by
  rw [ApplyChange_insert [] c hact]
  simp

/-- C4: inserting the two-line content `a\nb` into the empty document returns
the one-element document `["a\nb"]`, not the two lines `["a", "b"]` of
`split(content)`. -/
theorem insert_into_empty_not_split :
    ApplyChange [] ⟨"", ActionInsert, "", "", "a\nb", "", ""⟩ = some (["a\nb"], none) ∧
    strings.Split "a\nb" nl = ["a", "b"] ∧
    ApplyChange [] ⟨"", ActionInsert, "", "", "a\nb", "", ""⟩ ≠
      some (strings.Split "a\nb" nl, none) := by
  exact ⟨by decide, by decide, by decide⟩

/-! ## Conflicting destinations -/

/-- C5, as stated, fails: an insert into the empty document with both
destination fields set succeeds, and a move with both destination fields set
whose content block is not in the document fails with the block-not-found
error, not with `ErrInvalidChange`. -/
theorem both_destinations_not_always_rejected :
    ApplyChange [] ⟨"", ActionInsert, "", "", "x", "a", "b"⟩ = some (["x"], none) ∧
    ApplyChange ["a"] ⟨"", ActionMove, "", "", "zz", "a", "b"⟩ =
      some ([], some Error.ErrCodeBlock) := by
  exact ⟨by decide, by decide⟩

/-- C5, amended: a change with both destination fields non-empty fails with
`ErrInvalidChange` ("Cannot specify both ...") and returns no document when
it is an insert on a non-empty document, or a move whose content block occurs
in the document. -/
theorem both_destinations_rejected (D : List String) (c : Change)
    (hboth : c.DestinationAbove ≠ "" ∧ c.DestinationBelow ≠ "")
    (hcase : (c.Action = ActionInsert ∧ D ≠ []) ∨
      (c.Action = ActionMove ∧ ∃ k, kmp.OccursAt D (strings.Split c.Content nl) k)) :
    ApplyChange D c = some ([], some (Error.ErrInvalidChange msgBothDestinations)) := by
  rcases hcase with ⟨hact, hD⟩ | ⟨hact, hocc⟩
  · have hlen : D.length ≠ 0 := fun h => hD (List.length_eq_zero.mp h)
    rw [ApplyChange_insert D c hact, if_neg hlen]
    simp only [if_pos hboth]
  · exact ApplyChange_move_both D c hact hocc hboth

/-- Witness for the amended C5: a move of a block that is found, with both
destination fields set. -/
theorem both_destinations_rejected_witness :
    ((("a" : String) ≠ "" ∧ ("b" : String) ≠ "") ∧
      ((ActionMove = ActionInsert ∧ ["x", "a", "b"] ≠ ([] : List String)) ∨
        (ActionMove = ActionMove ∧
          ∃ k, kmp.OccursAt ["x", "a", "b"] (strings.Split "x" nl) k))) ∧
    ApplyChange ["x", "a", "b"] ⟨"", ActionMove, "", "", "x", "a", "b"⟩ =
      some ([], some (Error.ErrInvalidChange msgBothDestinations)) :=
  ⟨⟨by decide, Or.inr ⟨rfl, 0, by decide⟩⟩,
    both_destinations_rejected ["x", "a", "b"] ⟨"", ActionMove, "", "", "x", "a", "b"⟩
      (by decide) (Or.inr ⟨rfl, 0, by decide⟩)⟩

/-! ## The matcher as seen through `FindLocation` -/

/-- C6, as stated, fails on the empty needle: `FindLocation` reports
not-found although index `0` satisfies the matching condition (there is no
needle element to compare). -/
theorem empty_needle_not_found_despite_match :
    FindLocation ["a"] [] = (-1, some Error.ErrCodeBlock) ∧
    ∃ i, i + ([] : List String).length ≤ (["a"] : List String).length ∧
      ∀ k, k < ([] : List String).length →
        (["a"] : List String)[i + k]? = ([] : List String)[k]? := by
  refine ⟨by decide, 0, by decide, ?_⟩
  intro k hk
  simp at hk

/-- C6, amended: on a non-empty needle `N`, `FindLocation` either returns an
index `i` with `i + |N| ≤ |H|` and `H[i+k] = N[k]` for every `k < |N|`, or
reports not-found, and then no such index exists; on the empty needle it
reports not-found. An index is never returned unless the needle fully matches
there. -/
theorem FindLocation_exact (H N : List String) :
    (N = [] ∧ FindLocation H N = (-1, some Error.ErrCodeBlock)) ∨
    (N ≠ [] ∧
      ((∃ i : Nat, FindLocation H N = ((i : Int), none) ∧ i + N.length ≤ H.length ∧
          ∀ k, k < N.length → H[i + k]? = N[k]?) ∨
        (FindLocation H N = (-1, some Error.ErrCodeBlock) ∧
          ¬ ∃ i : Nat, i + N.length ≤ H.length ∧
            ∀ k, k < N.length → H[i + k]? = N[k]?))) := by
  by_cases hN : N = []
  · left
    subst hN
    exact ⟨rfl, rfl⟩
  · right
    refine ⟨hN, ?_⟩
    rcases FindLocation_cases H N hN with ⟨hres, hno⟩ | ⟨i, hres, hfirst⟩
    · right
      refine ⟨hres, ?_⟩
      rintro ⟨i, hi⟩
      exact hno i ((kmp.occursAt_iff_forall H N i).mpr hi)
    · left
      obtain ⟨h1, h2⟩ := (kmp.occursAt_iff_forall H N i).mp hfirst.1
      exact ⟨i, hres, h1, h2⟩

/-- C7 (first-match policy): when a non-empty needle occurs in the haystack
at more than one start position, `FindLocation` returns the smallest start
index at which it occurs. -/
theorem FindLocation_first_match (H N : List String) (hN : N ≠ []) (i1 i2 : Nat)
    (h1 : kmp.OccursAt H N i1) (h2 : kmp.OccursAt H N i2) (hne : i1 ≠ i2) :
    ∃ i : Nat, FindLocation H N = ((i : Int), none) ∧ kmp.OccursAt H N i ∧
      (∀ k, kmp.OccursAt H N k → i ≤ k) ∧ i ≤ i1 ∧ i ≤ i2 ∧ (i < i1 ∨ i < i2) := by
  obtain ⟨i, _, hfirst⟩ := kmp.KMPSearch_of_occurs H N hN ⟨i1, h1⟩
  have hi1 := hfirst.2 i1 h1
  have hi2 := hfirst.2 i2 h2
  exact ⟨i, FindLocation_of_first H N hN i hfirst, hfirst.1, hfirst.2, hi1, hi2, by omega⟩

/-- Witness for C7: the empty line occurs twice in `["", "", "line3"]`. -/
theorem FindLocation_first_match_witness :
    ([""] ≠ ([] : List String) ∧ kmp.OccursAt ["", "", "line3"] [""] 1 ∧
      kmp.OccursAt ["", "", "line3"] [""] 0 ∧ 1 ≠ 0) ∧
    ∃ i : Nat, FindLocation ["", "", "line3"] [""] = ((i : Int), none) ∧
      kmp.OccursAt ["", "", "line3"] [""] i ∧
      (∀ k, kmp.OccursAt ["", "", "line3"] [""] k → i ≤ k) ∧ i ≤ 1 ∧ i ≤ 0 ∧
      (i < 1 ∨ i < 0) :=
  ⟨⟨by decide, by decide, by decide, by decide⟩,
    FindLocation_first_match ["", "", "line3"] [""] (by decide) 1 0 (by decide) (by decide)
      (by decide)⟩

/-! ## Replace and delete: outcomes at a given first occurrence -/

/-- Putting a block back where it occurs gives the document again. -/
theorem take_block_drop (D X : List String) (i : Nat) (hocc : kmp.OccursAt D X i) :
    D.take i ++ (X ++ D.drop (i + X.length)) = D := by
  have h1 : X ++ D.drop (i + X.length) = D.drop i := by
    have h0 := List.take_append_drop X.length (D.drop i)
    rwa [hocc.2, List.drop_drop] at h0
  rw [h1, List.take_append_drop]

/-- A replace whose block is found at its first occurrence `i`. -/
theorem ApplyChange_replace_found (D : List String) (c : Change)
    (hact : c.Action = ActionReplace) (i : Nat)
    (hi : kmp.FirstOccurrence D (strings.Split c.Old nl) i) :
    ApplyChange D c =
      some (D.take i ++ (strings.Split c.New nl ++
        D.drop (i + (strings.Split c.Old nl).length)), none) := by
  have hres := kmp.KMPSearch_of_first D _ (strings.Split_ne_nil c.Old nl) i hi
  obtain ⟨h1, h2⟩ := slices_around_block D _ i hi.1
  rw [ApplyChange_replace D c hact, hres, if_neg (by omega), h1, h2]
  rfl

/-- A replace whose block occurs nowhere fails with the block-not-found
error. -/
theorem ApplyChange_replace_missing (D : List String) (c : Change)
    (hact : c.Action = ActionReplace)
    (hno : ∀ k, ¬ kmp.OccursAt D (strings.Split c.Old nl) k) :
    ApplyChange D c = some ([], some Error.ErrCodeBlock) := by
  rw [ApplyChange_replace D c hact, kmp.KMPSearch_of_not_occurs D _ hno, if_pos rfl]

/-- A delete whose block is found at its first occurrence `i`. -/
theorem ApplyChange_delete_found (D : List String) (c : Change)
    (hact : c.Action = ActionDelete) (i : Nat)
    (hi : kmp.FirstOccurrence D (strings.Split c.Content nl) i) :
    ApplyChange D c =
      some (D.take i ++ D.drop (i + (strings.Split c.Content nl).length), none) := by
  have hres := kmp.KMPSearch_of_first D _ (strings.Split_ne_nil c.Content nl) i hi
  obtain ⟨h1, h2⟩ := slices_around_block D _ i hi.1
  rw [ApplyChange_delete D c hact, hres, if_neg (by omega), h1, h2]
  rfl

/-- A delete whose block occurs nowhere fails with the block-not-found
error. -/
theorem ApplyChange_delete_missing (D : List String) (c : Change)
    (hact : c.Action = ActionDelete)
    (hno : ∀ k, ¬ kmp.OccursAt D (strings.Split c.Content nl) k) :
    ApplyChange D c = some ([], some Error.ErrCodeBlock) := by
  rw [ApplyChange_delete D c hact, kmp.KMPSearch_of_not_occurs D _ hno, if_pos rfl]

/-- A non-empty block occurs nowhere in the empty document. -/
theorem not_occursAt_nil (B : List String) (hB : B ≠ []) (k : Nat) :
    ¬ kmp.OccursAt [] B k := by
  intro h
  have h1 := h.1
  have h2 : 0 < B.length := List.length_pos.mpr hB
  simp only [List.length_nil] at h1
  omega

/-- The `default` case: any other action string. -/
theorem ApplyChange_default (D : List String) (c : Change)
    (h1 : c.Action ≠ ActionReplace) (h2 : c.Action ≠ ActionDelete)
    (h3 : c.Action ≠ ActionMove) (h4 : c.Action ≠ ActionInsert) :
    ApplyChange D c = some ([], some (Error.ErrInvalidChange msgUnsupportedAction)) := by
  unfold ApplyChange
  rw [if_neg (by simp [h1, h2, h3]), if_neg h4]

/-! ## Not-found, idempotence and length laws -/

/-- C11: a replace (resp. delete) change fails with the block-not-found error
exactly when `split(old)` (resp. `split(content)`) does not occur in the
document as a contiguous run of equal lines, and then no document is
returned; in particular every replace or delete on the empty document
fails. -/
theorem block_not_found_iff (D : List String) (c : Change) :
    (c.Action = ActionReplace →
      (((∃ R, ApplyChange D c = some (R, some Error.ErrCodeBlock)) ↔
          ¬ ∃ k, kmp.OccursAt D (strings.Split c.Old nl) k) ∧
        ((¬ ∃ k, kmp.OccursAt D (strings.Split c.Old nl) k) →
          ApplyChange D c = some ([], some Error.ErrCodeBlock)))) ∧
    (c.Action = ActionDelete →
      (((∃ R, ApplyChange D c = some (R, some Error.ErrCodeBlock)) ↔
          ¬ ∃ k, kmp.OccursAt D (strings.Split c.Content nl) k) ∧
        ((¬ ∃ k, kmp.OccursAt D (strings.Split c.Content nl) k) →
          ApplyChange D c = some ([], some Error.ErrCodeBlock)))) ∧
    (c.Action = ActionReplace ∨ c.Action = ActionDelete →
      ApplyChange [] c = some ([], some Error.ErrCodeBlock)) := by
  refine ⟨?_, ?_, ?_⟩
  · intro hact
    have hmiss : (¬ ∃ k, kmp.OccursAt D (strings.Split c.Old nl) k) →
        ApplyChange D c = some ([], some Error.ErrCodeBlock) := fun hno =>
      ApplyChange_replace_missing D c hact (fun k hk => hno ⟨k, hk⟩)
    refine ⟨⟨?_, fun hno => ⟨[], hmiss hno⟩⟩, hmiss⟩
    rintro ⟨R, hR⟩ hocc
    obtain ⟨i, _, hi⟩ := kmp.KMPSearch_of_occurs D _ (strings.Split_ne_nil c.Old nl) hocc
    rw [ApplyChange_replace_found D c hact i hi] at hR
    simp at hR
  · intro hact
    have hmiss : (¬ ∃ k, kmp.OccursAt D (strings.Split c.Content nl) k) →
        ApplyChange D c = some ([], some Error.ErrCodeBlock) := fun hno =>
      ApplyChange_delete_missing D c hact (fun k hk => hno ⟨k, hk⟩)
    refine ⟨⟨?_, fun hno => ⟨[], hmiss hno⟩⟩, hmiss⟩
    rintro ⟨R, hR⟩ hocc
    obtain ⟨i, _, hi⟩ :=
      kmp.KMPSearch_of_occurs D _ (strings.Split_ne_nil c.Content nl) hocc
    rw [ApplyChange_delete_found D c hact i hi] at hR
    simp at hR
  · rintro (hact | hact)
    · exact ApplyChange_replace_missing [] c hact
        (not_occursAt_nil _ (strings.Split_ne_nil c.Old nl))
    · exact ApplyChange_delete_missing [] c hact
        (not_occursAt_nil _ (strings.Split_ne_nil c.Content nl))

/-- Witness for C11: the line ` line2` differs from the block `line2` only in
leading whitespace, so the block occurs nowhere and the replace fails. -/
theorem block_not_found_iff_witness :
    (¬ ∃ k, kmp.OccursAt ["line1", " line2", "line3"] (strings.Split "line2" nl) k) ∧
    ApplyChange ["line1", " line2", "line3"]
        ⟨"", ActionReplace, "line2", "newLine", "", "", ""⟩ =
      some ([], some Error.ErrCodeBlock) ∧
    ApplyChange [] ⟨"", ActionDelete, "", "", "line1", "", ""⟩ =
      some ([], some Error.ErrCodeBlock) := by
  have hno : ¬ ∃ k, kmp.OccursAt ["line1", " line2", "line3"] (strings.Split "line2" nl) k := by
    rintro ⟨k, hk⟩
    have hb := hk.1
    have hl : (strings.Split "line2" nl).length = 1 := by decide
    simp only [List.length_cons, List.length_nil] at hb
    have hk3 : k < 3 := by omega
    interval_cases k
    · exact absurd hk (by decide)
    · exact absurd hk (by decide)
    · exact absurd hk (by decide)
  exact ⟨hno,
    ((block_not_found_iff ["line1", " line2", "line3"]
      ⟨"", ActionReplace, "line2", "newLine", "", "", ""⟩).1 rfl).2 hno,
    (block_not_found_iff ["line1", " line2", "line3"]
      ⟨"", ActionDelete, "", "", "line1", "", ""⟩).2.2 (Or.inr rfl)⟩

/-- C12 (replace idempotence): a replace change whose `new` text equals its
`old` text, and whose block occurs in the document, succeeds and returns a
document equal to the input line for line. -/
theorem replace_same_text_is_identity (D : List String) (c : Change)
    (hact : c.Action = ActionReplace) (hsame : c.New = c.Old)
    (hocc : ∃ k, kmp.OccursAt D (strings.Split c.Old nl) k) :
    ApplyChange D c = some (D, none) := by
  obtain ⟨i, _, hi⟩ := kmp.KMPSearch_of_occurs D _ (strings.Split_ne_nil c.Old nl) hocc
  rw [ApplyChange_replace_found D c hact i hi, hsame, take_block_drop D _ i hi.1]

/-- Witness for C12: the test "Identical old and new content". -/
theorem replace_same_text_is_identity_witness :
    (∃ k, kmp.OccursAt ["line1", "line2", "line3"] (strings.Split "line2" nl) k) ∧
    ApplyChange ["line1", "line2", "line3"] ⟨"", ActionReplace, "line2", "line2", "", "", ""⟩ =
      some (["line1", "line2", "line3"], none) :=
  ⟨⟨1, by decide⟩,
    replace_same_text_is_identity ["line1", "line2", "line3"]
      ⟨"", ActionReplace, "line2", "line2", "", "", ""⟩ rfl rfl ⟨1, by decide⟩⟩

/-- C13 (delete length law): a delete change whose block `split(content)`
occurs in the document returns a document of length
`len(D) - len(split(content))`. -/
theorem delete_length_law (D : List String) (c : Change)
    (hact : c.Action = ActionDelete)
    (hocc : ∃ k, kmp.OccursAt D (strings.Split c.Content nl) k) :
    ∃ R, ApplyChange D c = some (R, none) ∧
      R.length = D.length - (strings.Split c.Content nl).length ∧
      R.length + (strings.Split c.Content nl).length = D.length := by
  obtain ⟨i, _, hi⟩ :=
    kmp.KMPSearch_of_occurs D _ (strings.Split_ne_nil c.Content nl) hocc
  refine ⟨_, ApplyChange_delete_found D c hact i hi, ?_⟩
  have hb := hi.1.1
  simp only [List.length_append, List.length_take, List.length_drop]
  omega

/-- Witness for C13: the test "Deleting multiple lines". -/
theorem delete_length_law_witness :
    (∃ k, kmp.OccursAt ["line1", "line2", "line3", "line4"]
      (strings.Split "line2\nline3" nl) k) ∧
    ∃ R, ApplyChange ["line1", "line2", "line3", "line4"]
        ⟨"", ActionDelete, "", "", "line2\nline3", "", ""⟩ = some (R, none) ∧
      R.length = List.length ["line1", "line2", "line3", "line4"] -
        (strings.Split "line2\nline3" nl).length ∧
      R.length + (strings.Split "line2\nline3" nl).length =
        List.length ["line1", "line2", "line3", "line4"] :=
  ⟨⟨1, by decide⟩,
    delete_length_law ["line1", "line2", "line3", "line4"]
      ⟨"", ActionDelete, "", "", "line2\nline3", "", ""⟩ rfl ⟨1, by decide⟩⟩

/-- C20: a replace change with `new = ""` whose block is found at its first
occurrence `i` returns `D[0:i] ++ [""] ++ D[i+|B|:]`: one empty line stands in
for the block, the result has length `len(D) - |B| + 1`, and the same length
as `D` when `old` is a single line. -/
theorem replace_with_nothing_keeps_line (D : List String) (c : Change)
    (hact : c.Action = ActionReplace) (hnew : c.New = "")
    (hocc : ∃ k, kmp.OccursAt D (strings.Split c.Old nl) k) :
    ∃ i R, kmp.FirstOccurrence D (strings.Split c.Old nl) i ∧
      ApplyChange D c = some (R, none) ∧
      R = D.take i ++ [""] ++ D.drop (i + (strings.Split c.Old nl).length) ∧
      R.length = D.length - (strings.Split c.Old nl).length + 1 ∧
      ((strings.Split c.Old nl).length = 1 → R.length = D.length) := by
  obtain ⟨i, _, hi⟩ := kmp.KMPSearch_of_occurs D _ (strings.Split_ne_nil c.Old nl) hocc
  have hsplit : strings.Split "" nl = [""] := by decide
  have hb := hi.1.1
  have hlen : (D.take i ++ [""] ++ D.drop (i + (strings.Split c.Old nl).length)).length =
      D.length - (strings.Split c.Old nl).length + 1 := by
    simp only [List.length_append, List.length_take, List.length_drop, List.length_singleton]
    omega
  refine ⟨i, _, hi, ?_, rfl, hlen, ?_⟩
  · rw [ApplyChange_replace_found D c hact i hi, hnew, hsplit, List.append_assoc]
  · intro h1
    rw [hlen]
    omega

/-- Witness for C20: the test "Replacing with nothing". -/
theorem replace_with_nothing_keeps_line_witness :
    (∃ k, kmp.OccursAt ["line1", "line2", "line3"] (strings.Split "line2" nl) k) ∧
    ∃ i R, kmp.FirstOccurrence ["line1", "line2", "line3"] (strings.Split "line2" nl) i ∧
      ApplyChange ["line1", "line2", "line3"] ⟨"", ActionReplace, "line2", "", "", "", ""⟩ =
        some (R, none) ∧
      R = List.take i ["line1", "line2", "line3"] ++ [""] ++
        List.drop (i + (strings.Split "line2" nl).length) ["line1", "line2", "line3"] ∧
      R.length = List.length ["line1", "line2", "line3"] -
        (strings.Split "line2" nl).length + 1 ∧
      ((strings.Split "line2" nl).length = 1 →
        R.length = List.length ["line1", "line2", "line3"]) :=
  ⟨⟨1, by decide⟩,
    replace_with_nothing_keeps_line ["line1", "line2", "line3"]
      ⟨"", ActionReplace, "line2", "", "", "", ""⟩ rfl rfl ⟨1, by decide⟩⟩

/-! ## Unsupported actions and the error value of `FindLocation` -/

/-- C14: a change whose action is none of `replace`, `delete`, `move`,
`insert` (the empty action string included) fails with `ErrInvalidChange`
carrying the reason "Unsupported action", whatever the document and the other
fields are. -/
theorem unsupported_action_rejected (D : List String) (c : Change)
    (h1 : c.Action ≠ "replace") (h2 : c.Action ≠ "delete")
    (h3 : c.Action ≠ "move") (h4 : c.Action ≠ "insert") :
    ApplyChange D c = some ([], some (Error.ErrInvalidChange "Unsupported action")) :=
  ApplyChange_default D c h1 h2 h3 h4

/-- Witness for C14: the empty action string. -/
theorem unsupported_action_rejected_witness :
    ((("" : String) ≠ "replace" ∧ ("" : String) ≠ "delete" ∧ ("" : String) ≠ "move" ∧
      ("" : String) ≠ "insert")) ∧
    ApplyChange ["line1"] ⟨"note", "", "line1", "x", "line1", "line1", ""⟩ =
      some ([], some (Error.ErrInvalidChange "Unsupported action")) :=
  ⟨⟨by decide, by decide, by decide, by decide⟩,
    unsupported_action_rejected ["line1"] ⟨"note", "", "line1", "x", "line1", "line1", ""⟩
      (by decide) (by decide) (by decide) (by decide)⟩

/-- C15: on the empty needle `FindLocation` returns index `-1` together with
the block-not-found error, for every haystack; and for every haystack and
needle the returned error is non-nil exactly when the returned index is
`-1`. -/
theorem FindLocation_error_iff_minus_one :
    (∀ H : List String, FindLocation H [] = (-1, some Error.ErrCodeBlock)) ∧
    (∀ H N : List String,
      ((FindLocation H N).2 ≠ none ↔ (FindLocation H N).1 = -1) ∧
      ((FindLocation H N).2 ≠ none → (FindLocation H N).2 = some Error.ErrCodeBlock)) := by
  refine ⟨fun H => rfl, ?_⟩
  intro H N
  unfold FindLocation
  by_cases hlen : N.length = 0
  · rw [if_pos hlen]
    simp
  · rw [if_neg hlen]
    by_cases hl : kmp.KMPSearch H N = -1
    · simp [hl]
    · simp [hl]

/-! ## Move: success and the append branch -/

/-- C16: a move change with at most one destination field non-empty whose
content block and anchor block both occur in the document succeeds; and when
the computed insertion index exceeds the length of the document after the
block was removed, the result is that post-removal document followed by the
moved block. -/
theorem move_succeeds_and_appends_past_end (D : List String) (c : Change)
    (hact : c.Action = ActionMove)
    (hnotboth : ¬ (c.DestinationAbove ≠ "" ∧ c.DestinationBelow ≠ ""))
    (hocc : ∃ k, kmp.OccursAt D (strings.Split c.Content nl) k)
    (hanchor : ∃ k, kmp.OccursAt D (strings.Split c.destination nl) k) :
    ∃ i j R, kmp.FirstOccurrence D (strings.Split c.Content nl) i ∧
      kmp.FirstOccurrence D (strings.Split c.destination nl) j ∧
      ApplyChange D c = some (R, none) ∧
      ((D.take i ++ D.drop (i + (strings.Split c.Content nl).length)).length <
          (if c.DestinationBelow ≠ "" then
            j + (strings.Split c.destination nl).length else j) →
        R = (D.take i ++ D.drop (i + (strings.Split c.Content nl).length)) ++
          strings.Split c.Content nl) := by
  obtain ⟨i, _, hi⟩ :=
    kmp.KMPSearch_of_occurs D _ (strings.Split_ne_nil c.Content nl) hocc
  obtain ⟨j, _, hj⟩ :=
    kmp.KMPSearch_of_occurs D _ (strings.Split_ne_nil c.destination nl) hanchor
  refine ⟨i, j, _, hi, hj, ApplyChange_move_found D c hact hnotboth i j hi hj, ?_⟩
  intro hlt
  rw [if_pos hlt]

/-- Witness for C16: in `[x, y, a]` the block `x, y` moves below the last line
`a`; the insertion index 3 exceeds the length 1 of the post-removal
document. -/
theorem move_succeeds_and_appends_past_end_witness :
    (¬ (("" : String) ≠ "" ∧ ("a" : String) ≠ "") ∧
      (∃ k, kmp.OccursAt ["x", "y", "a"] (strings.Split "x\ny" nl) k) ∧
      (∃ k, kmp.OccursAt ["x", "y", "a"]
        (strings.Split (Change.destination ⟨"", ActionMove, "", "", "x\ny", "", "a"⟩) nl) k)) ∧
    ∃ i j R, kmp.FirstOccurrence ["x", "y", "a"] (strings.Split "x\ny" nl) i ∧
      kmp.FirstOccurrence ["x", "y", "a"]
        (strings.Split (Change.destination ⟨"", ActionMove, "", "", "x\ny", "", "a"⟩) nl) j ∧
      ApplyChange ["x", "y", "a"] ⟨"", ActionMove, "", "", "x\ny", "", "a"⟩ = some (R, none) ∧
      ((List.take i ["x", "y", "a"] ++
          List.drop (i + (strings.Split "x\ny" nl).length) ["x", "y", "a"]).length <
          (if ("a" : String) ≠ "" then
            j + (strings.Split
              (Change.destination ⟨"", ActionMove, "", "", "x\ny", "", "a"⟩) nl).length
            else j) →
        R = (List.take i ["x", "y", "a"] ++
          List.drop (i + (strings.Split "x\ny" nl).length) ["x", "y", "a"]) ++
          strings.Split "x\ny" nl) :=
  ⟨⟨by decide, ⟨0, by decide⟩, ⟨2, by decide⟩⟩,
    move_succeeds_and_appends_past_end ["x", "y", "a"]
      ⟨"", ActionMove, "", "", "x\ny", "", "a"⟩ rfl (by decide) ⟨0, by decide⟩
      ⟨2, by decide⟩⟩

/-! ## The outcomes of `ApplyChange` -/

/-- An insert on a non-empty document with both destination fields set fails
with `ErrInvalidChange`. -/
theorem ApplyChange_insert_both (D : List String) (c : Change)
    (hact : c.Action = ActionInsert) (hD : D ≠ [])
    (hboth : c.DestinationAbove ≠ "" ∧ c.DestinationBelow ≠ "") :
    ApplyChange D c = some ([], some (Error.ErrInvalidChange msgBothDestinations)) := by
  have hlen : D.length ≠ 0 := fun h => hD (List.length_eq_zero.mp h)
  rw [ApplyChange_insert D c hact, if_neg hlen]
  simp only [if_pos hboth]

/-- An insert on a non-empty document whose anchor block occurs nowhere fails
with the block-not-found error. -/
theorem ApplyChange_insert_anchor_missing (D : List String) (c : Change)
    (hact : c.Action = ActionInsert) (hD : D ≠ [])
    (hnotboth : ¬ (c.DestinationAbove ≠ "" ∧ c.DestinationBelow ≠ ""))
    (hno : ∀ k, ¬ kmp.OccursAt D (strings.Split c.destination nl) k) :
    ApplyChange D c = some ([], some Error.ErrCodeBlock) := by
  have hlen : D.length ≠ 0 := fun h => hD (List.length_eq_zero.mp h)
  rw [ApplyChange_insert D c hact, if_neg hlen]
  simp only [if_neg hnotboth, FindLocation_of_not_occurs D _ hno]

/-- The edited document of the specification for a replace whose block is
found at its first occurrence `i`. -/
theorem specEdit_replace_found (D : List String) (c : Change)
    (hact : c.Action = ActionReplace) (i : Nat)
    (hi : kmp.FirstOccurrence D (strings.Split c.Old nl) i) :
    specEdit D c =
      some (D.take i ++ strings.Split c.New nl ++
        D.drop (i + (strings.Split c.Old nl).length)) := by
  have hres := kmp.KMPSearch_of_first D _ (strings.Split_ne_nil c.Old nl) i hi
  unfold specEdit
  rw [if_pos hact]
  simp only [hres]
  rw [if_neg (by omega), Int.toNat_ofNat]

/-- The edited document of the specification for a delete whose block is
found at its first occurrence `i`. -/
theorem specEdit_delete_found (D : List String) (c : Change)
    (hact : c.Action = ActionDelete) (i : Nat)
    (hi : kmp.FirstOccurrence D (strings.Split c.Content nl) i) :
    specEdit D c =
      some (D.take i ++ D.drop (i + (strings.Split c.Content nl).length)) := by
  have hres := kmp.KMPSearch_of_first D _ (strings.Split_ne_nil c.Content nl) i hi
  have h1 : ActionDelete ≠ ActionReplace := by decide
  unfold specEdit
  rw [if_neg (by rw [hact]; exact h1), if_pos hact]
  simp only [hres]
  rw [if_neg (by omega), Int.toNat_ofNat]

/-- The edited document of the specification for an insert on a non-empty
document whose anchor block is found at its first occurrence `j`. -/
theorem specEdit_insert_found (D : List String) (c : Change)
    (hact : c.Action = ActionInsert) (hD : D ≠ [])
    (hnotboth : ¬ (c.DestinationAbove ≠ "" ∧ c.DestinationBelow ≠ ""))
    (j : Nat) (hj : kmp.FirstOccurrence D (strings.Split c.destination nl) j) :
    specEdit D c =
      some (D.take (if c.DestinationBelow ≠ "" then
              j + (strings.Split c.destination nl).length else j) ++
            strings.Split c.Content nl ++
            D.drop (if c.DestinationBelow ≠ "" then
              j + (strings.Split c.destination nl).length else j)) := by
  have hres := kmp.KMPSearch_of_first D _ (strings.Split_ne_nil c.destination nl) j hj
  have h1 : ActionInsert ≠ ActionReplace := by decide
  have h2 : ActionInsert ≠ ActionDelete := by decide
  have h3 : ActionInsert ≠ ActionMove := by decide
  have hlen : D.length ≠ 0 := fun h => hD (List.length_eq_zero.mp h)
  unfold specEdit
  rw [if_neg (by rw [hact]; exact h1), if_neg (by rw [hact]; exact h2),
    if_neg (by rw [hact]; exact h3), if_pos hact, if_neg hlen, if_neg hnotboth]
  simp only [hres]
  rw [if_neg (by omega), Int.toNat_ofNat]

/-- Every call of `ApplyChange` ends in one of three ways: the block-not-found
error with the nil document, an `ErrInvalidChange` with the nil document, or no
error and a document. In the last case the document is the edited document of
the specification for replace, delete and insert on a non-empty document; a
delete does not lengthen the document and a move keeps its length. -/
theorem ApplyChange_outcomes (D : List String) (c : Change) :
    ApplyChange D c = some ([], some Error.ErrCodeBlock) ∨
    (∃ msg, ApplyChange D c = some ([], some (Error.ErrInvalidChange msg))) ∨
    (∃ R, ApplyChange D c = some (R, none) ∧
      (c.Action = ActionReplace ∨ c.Action = ActionDelete ∨
        (c.Action = ActionInsert ∧ D ≠ []) → specEdit D c = some R) ∧
      (c.Action = ActionDelete → R.length ≤ D.length) ∧
      (c.Action = ActionMove → R.length = D.length)) := by
  have hRD : ActionReplace ≠ ActionDelete := by decide
  have hRM : ActionReplace ≠ ActionMove := by decide
  have hRI : ActionReplace ≠ ActionInsert := by decide
  have hDM : ActionDelete ≠ ActionMove := by decide
  have hDI : ActionDelete ≠ ActionInsert := by decide
  have hMI : ActionMove ≠ ActionInsert := by decide
  by_cases hR : c.Action = ActionReplace
  · by_cases hocc : ∃ k, kmp.OccursAt D (strings.Split c.Old nl) k
    · obtain ⟨i, _, hi⟩ :=
        kmp.KMPSearch_of_occurs D _ (strings.Split_ne_nil c.Old nl) hocc
      refine Or.inr (Or.inr ⟨_, ApplyChange_replace_found D c hR i hi, ?_, ?_, ?_⟩)
      · intro _
        rw [specEdit_replace_found D c hR i hi, List.append_assoc]
      · intro h; rw [hR] at h; exact absurd h hRD
      · intro h; rw [hR] at h; exact absurd h hRM
    · exact Or.inl (ApplyChange_replace_missing D c hR (fun k hk => hocc ⟨k, hk⟩))
  by_cases hDel : c.Action = ActionDelete
  · by_cases hocc : ∃ k, kmp.OccursAt D (strings.Split c.Content nl) k
    · obtain ⟨i, _, hi⟩ :=
        kmp.KMPSearch_of_occurs D _ (strings.Split_ne_nil c.Content nl) hocc
      refine Or.inr (Or.inr ⟨_, ApplyChange_delete_found D c hDel i hi, ?_, ?_, ?_⟩)
      · intro _
        rw [specEdit_delete_found D c hDel i hi]
      · intro _
        have hb := hi.1.1
        simp only [List.length_append, List.length_take, List.length_drop]
        omega
      · intro h; rw [hDel] at h; exact absurd h hDM
    · exact Or.inl (ApplyChange_delete_missing D c hDel (fun k hk => hocc ⟨k, hk⟩))
  by_cases hM : c.Action = ActionMove
  · by_cases hocc : ∃ k, kmp.OccursAt D (strings.Split c.Content nl) k
    · by_cases hboth : c.DestinationAbove ≠ "" ∧ c.DestinationBelow ≠ ""
      · exact Or.inr (Or.inl ⟨_, ApplyChange_move_both D c hM hocc hboth⟩)
      · rcases FindLocation_cases D _ (strings.Split_ne_nil c.destination nl) with
          ⟨_, hno⟩ | ⟨j, _, hj⟩
        · exact Or.inl (ApplyChange_move_anchor_missing D c hM hocc hboth hno)
        · obtain ⟨i, _, hi⟩ :=
            kmp.KMPSearch_of_occurs D _ (strings.Split_ne_nil c.Content nl) hocc
          refine Or.inr (Or.inr ⟨_, ApplyChange_move_found D c hM hboth i j hi hj, ?_, ?_, ?_⟩)
          · rintro (h | h | ⟨h, _⟩)
            · exact absurd h hR
            · exact absurd h hDel
            · rw [hM] at h; exact absurd h hMI
          · intro h; exact absurd h hDel
          · intro _
            split_ifs
            all_goals
              first
              | exact (perm_of_cut_and_paste D _ i 0 hi.1).1.length_eq
              | exact (perm_of_cut_and_paste D _ i _ hi.1).2.length_eq
    · exact Or.inl (ApplyChange_move_content_missing D c hM (fun k hk => hocc ⟨k, hk⟩))
  by_cases hI : c.Action = ActionInsert
  · by_cases hD : D = []
    · subst hD
      refine Or.inr (Or.inr ⟨_, ApplyChange_insert_empty c hI, ?_, ?_, ?_⟩)
      · rintro (h | h | ⟨_, h⟩)
        · exact absurd h hR
        · exact absurd h hDel
        · exact absurd rfl h
      · intro h; exact absurd h hDel
      · intro h; exact absurd h hM
    · by_cases hboth : c.DestinationAbove ≠ "" ∧ c.DestinationBelow ≠ ""
      · exact Or.inr (Or.inl ⟨_, ApplyChange_insert_both D c hI hD hboth⟩)
      · rcases FindLocation_cases D _ (strings.Split_ne_nil c.destination nl) with
          ⟨_, hno⟩ | ⟨j, _, hj⟩
        · exact Or.inl (ApplyChange_insert_anchor_missing D c hI hD hboth hno)
        · refine Or.inr (Or.inr ⟨_, ApplyChange_insert_found D c hI hD hboth j hj, ?_, ?_, ?_⟩)
          · intro _
            exact specEdit_insert_found D c hI hD hboth j hj
          · intro h; exact absurd h hDel
          · intro h; exact absurd h hM
  · exact Or.inr (Or.inl ⟨_, ApplyChange_default D c hR hDel hM hI⟩)

/-- No partial result on failure: whenever `ApplyChange` returns an error, the
returned document is nil and the error is the block-not-found error or an
`ErrInvalidChange`. -/
theorem ApplyChange_error_nil (D : List String) (c : Change) (R : List String)
    (e : Error) (h : ApplyChange D c = some (R, some e)) :
    R = [] ∧ (e = Error.ErrCodeBlock ∨ ∃ msg, e = Error.ErrInvalidChange msg) := by
  rcases ApplyChange_outcomes D c with h1 | ⟨msg, h1⟩ | ⟨R1, h1, _⟩
  · rw [h1] at h
    simp only [Option.some.injEq, Prod.mk.injEq] at h
    exact ⟨h.1.symm, Or.inl h.2.symm⟩
  · rw [h1] at h
    simp only [Option.some.injEq, Prod.mk.injEq] at h
    exact ⟨h.1.symm, Or.inr ⟨msg, h.2.symm⟩⟩
  · rw [h1] at h
    simp at h

/-- A replace, a delete, or an insert on a non-empty document that returns no
error returns the edited document of the specification. -/
theorem ApplyChange_success_specEdit (D : List String) (c : Change) (R : List String)
    (hcase : c.Action = ActionReplace ∨ c.Action = ActionDelete ∨
      (c.Action = ActionInsert ∧ D ≠ []))
    (h : ApplyChange D c = some (R, none)) : specEdit D c = some R := by
  rcases ApplyChange_outcomes D c with h1 | ⟨msg, h1⟩ | ⟨R1, h1, hspec, _⟩
  · rw [h1] at h; simp at h
  · rw [h1] at h; simp at h
  · rw [h1] at h
    simp only [Option.some.injEq, Prod.mk.injEq, and_true] at h
    rw [← h]
    exact hspec hcase

/-- C18: the half of the claim about returns without error fails. On the
empty document an insert of the two-line content `a\nb` returns no error and
the one-element document `["a\nb"]`, whereas the edited document is
`["a", "b"]`; and on `[x, a, b]` the move of `x` below `a` returns no error and
`[a, b, x]`, whereas the edited document is `[a, x, b]`. -/
theorem success_result_not_always_edited :
    ApplyChange [] ⟨"", ActionInsert, "", "", "a\nb", "", ""⟩ = some (["a\nb"], none) ∧
    specEdit [] ⟨"", ActionInsert, "", "", "a\nb", "", ""⟩ = some ["a", "b"] ∧
    ApplyChange ["x", "a", "b"] ⟨"", ActionMove, "", "", "x", "", "a"⟩ =
      some (["a", "b", "x"], none) ∧
    specEdit ["x", "a", "b"] ⟨"", ActionMove, "", "", "x", "", "a"⟩ =
      some ["a", "x", "b"] := by
  exact ⟨by decide, by decide, by decide, by decide⟩

/-! ## Fields an action does not use -/

/-- C19: two changes with the same action that agree on the fields the
action uses (replace: `old`, `new`; delete: `content`; move and insert:
`content`, `destination_above`, `destination_below`) give the same result or
the same error on every document. The `comment` field is used by no action,
and `old`/`new` are used by replace only. -/
theorem unused_fields_ignored (D : List String) (c1 c2 : Change)
    (hact : c1.Action = c2.Action)
    (hrep : c1.Action = ActionReplace → c1.Old = c2.Old ∧ c1.New = c2.New)
    (hdel : c1.Action = ActionDelete → c1.Content = c2.Content)
    (hmov : c1.Action = ActionMove ∨ c1.Action = ActionInsert →
      c1.Content = c2.Content ∧ c1.DestinationAbove = c2.DestinationAbove ∧
        c1.DestinationBelow = c2.DestinationBelow) :
    ApplyChange D c1 = ApplyChange D c2 := by
  by_cases hR : c1.Action = ActionReplace
  · obtain ⟨ho, hn⟩ := hrep hR
    rw [ApplyChange_replace D c1 hR, ApplyChange_replace D c2 (hact ▸ hR), ho, hn]
  by_cases hDel : c1.Action = ActionDelete
  · rw [ApplyChange_delete D c1 hDel, ApplyChange_delete D c2 (hact ▸ hDel), hdel hDel]
  by_cases hM : c1.Action = ActionMove
  · obtain ⟨hc, ha, hb⟩ := hmov (Or.inl hM)
    have hd : c1.destination = c2.destination := by
      unfold Change.destination; rw [ha, hb]
    rw [ApplyChange_move D c1 hM, ApplyChange_move D c2 (hact ▸ hM), hc, ha, hb, hd]
  by_cases hI : c1.Action = ActionInsert
  · obtain ⟨hc, ha, hb⟩ := hmov (Or.inr hI)
    have hd : c1.destination = c2.destination := by
      unfold Change.destination; rw [ha, hb]
    rw [ApplyChange_insert D c1 hI, ApplyChange_insert D c2 (hact ▸ hI), hc, ha, hb, hd]
  · rw [ApplyChange_default D c1 hR hDel hM hI,
      ApplyChange_default D c2 (hact ▸ hR) (hact ▸ hDel) (hact ▸ hM) (hact ▸ hI)]

/-- Witness for C19: two delete changes that differ in `comment`, `old`, `new`
and both destination fields. -/
theorem unused_fields_ignored_witness :
    (ActionDelete = ActionDelete ∧ ActionDelete ≠ ActionReplace ∧
      ActionDelete ≠ ActionMove ∧ ActionDelete ≠ ActionInsert ∧
      ("line2" : String) = "line2") ∧
    ApplyChange ["line1", "line2", "line3"] ⟨"first", ActionDelete, "o", "n", "line2", "a", "b"⟩ =
      ApplyChange ["line1", "line2", "line3"] ⟨"second", ActionDelete, "", "", "line2", "", ""⟩ :=
  ⟨⟨rfl, by decide, by decide, by decide, rfl⟩,
    unused_fields_ignored ["line1", "line2", "line3"]
      ⟨"first", ActionDelete, "o", "n", "line2", "a", "b"⟩
      ⟨"second", ActionDelete, "", "", "line2", "", ""⟩ rfl
      (fun h => absurd h (by decide)) (fun _ => rfl)
      (fun h => h.elim (fun h1 => absurd h1 (by decide)) (fun h2 => absurd h2 (by decide)))⟩

/-! ## The caller's backing array -/

/-- A slice expression `s[:hi]` that does not panic has its bound in range. -/
theorem sliceTo_eq_some {α : Type} {s x : List α} {hi : Int} (h : sliceTo s hi = some x) :
    0 ≤ hi ∧ hi.toNat ≤ s.length ∧ x = s.take hi.toNat := by
  unfold sliceTo at h
  split_ifs at h with hc
  simp only [Option.some.injEq] at h
  exact ⟨hc.1, by omega, h.symm⟩

/-- A slice expression `s[lo:]` that does not panic has its bound in range. -/
theorem sliceFrom_eq_some {α : Type} {s x : List α} {lo : Int} (h : sliceFrom s lo = some x) :
    0 ≤ lo ∧ lo.toNat ≤ s.length ∧ x = s.drop lo.toNat := by
  unfold sliceFrom at h
  split_ifs at h with hc
  simp only [Option.some.injEq] at h
  exact ⟨hc.1, by omega, h.symm⟩

/-- A slice expression `s[lo:hi]` that does not panic has its bounds in range. -/
theorem slice_eq_some {α : Type} {s x : List α} {lo hi : Int} (h : slice s lo hi = some x) :
    0 ≤ lo ∧ lo ≤ hi ∧ hi.toNat ≤ s.length ∧ x = (s.take hi.toNat).drop lo.toNat := by
  unfold slice at h
  split_ifs at h with hc
  simp only [Option.some.injEq] at h
  exact ⟨hc.1, hc.2.1, by omega, h.symm⟩

/-- An `append` behind a prefix of the caller's lines: the array afterwards. -/
theorem appendInto_behind_lines (array : List String) (n a : Nat) (ys : List String)
    (ha : a ≤ n) (hn : n ≤ array.length) :
    (appendInto array a ys).1 =
      if ((array.take n).take a ++ ys).length ≤ array.length then
        ((array.take n).take a ++ ys) ++ array.drop ((array.take n).take a ++ ys).length
      else array := by
  have h1 : (array.take n).take a = array.take a := by
    rw [List.take_take, Nat.min_eq_left ha]
  have h2 : (array.take a ++ ys).length = a + ys.length := by
    rw [List.length_append, List.length_take, Nat.min_eq_left (by omega)]
  rw [h1, h2]
  unfold appendInto
  split_ifs <;> rfl

/-- An `append` that fits the capacity writes into the array. -/
theorem appendInto_fits (array : List String) (a : Nat) (ys : List String)
    (h : a + ys.length ≤ array.length) :
    appendInto array a ys = (array.take a ++ ys ++ array.drop (a + ys.length), true) := by
  unfold appendInto
  rw [if_pos h]

/-- The `ActionReplace` branch, with the backing array. -/
theorem ApplyChangeInPlace_replace (array : List String) (n : Nat) (c : Change)
    (h : c.Action = ActionReplace) :
    ApplyChangeInPlace array n c =
      if kmp.KMPSearch (array.take n) (strings.Split c.Old nl) = -1 then
        some (([], some Error.ErrCodeBlock), array)
      else
        (sliceTo (array.take n) (kmp.KMPSearch (array.take n) (strings.Split c.Old nl))).bind
          fun before =>
        (sliceFrom (array.take n) (kmp.KMPSearch (array.take n) (strings.Split c.Old nl) +
            ((strings.Split c.Old nl).length : Int))).bind fun after =>
        some ((before ++ (strings.Split c.New nl ++ after), none),
          (appendInto array (kmp.KMPSearch (array.take n) (strings.Split c.Old nl)).toNat
            (strings.Split c.New nl ++ after)).1) := by
  unfold ApplyChangeInPlace
  simp only [h, true_or, if_true, ne_eq, not_true_eq_false, if_false]
  rfl

/-- Replace: returned values and backing array after the call. -/
theorem ApplyChangeInPlace_eq_replace (array : List String) (n : Nat) (c : Change)
    (hn : n ≤ array.length) (h : c.Action = ActionReplace) :
    ApplyChangeInPlace array n c =
      (ApplyChange (array.take n) c).map (fun r => (r, arrayAfter array r)) := by
  rw [ApplyChangeInPlace_replace array n c h, ApplyChange_replace _ c h]
  by_cases hk : kmp.KMPSearch (array.take n) (strings.Split c.Old nl) = -1
  · rw [if_pos hk, if_pos hk]; rfl
  · rw [if_neg hk, if_neg hk]
    cases hb : sliceTo (array.take n) (kmp.KMPSearch (array.take n) (strings.Split c.Old nl)) with
    | none => rfl
    | some before =>
      cases ha : sliceFrom (array.take n)
          (kmp.KMPSearch (array.take n) (strings.Split c.Old nl) +
            ((strings.Split c.Old nl).length : Int)) with
      | none => rfl
      | some after =>
        obtain ⟨_, h2, h3⟩ := sliceTo_eq_some hb
        have hlen : (array.take n).length = n := by simp [hn]
        simp only [Option.some_bind, Option.map_some', arrayAfter]
        rw [appendInto_behind_lines array n _ _ (by omega) hn, ← h3]

/-- The `ActionDelete` branch, with the backing array. -/
theorem ApplyChangeInPlace_delete (array : List String) (n : Nat) (c : Change)
    (h : c.Action = ActionDelete) :
    ApplyChangeInPlace array n c =
      if kmp.KMPSearch (array.take n) (strings.Split c.Content nl) = -1 then
        some (([], some Error.ErrCodeBlock), array)
      else
        (sliceTo (array.take n)
          (kmp.KMPSearch (array.take n) (strings.Split c.Content nl))).bind fun before =>
        (sliceFrom (array.take n) (kmp.KMPSearch (array.take n) (strings.Split c.Content nl) +
            ((strings.Split c.Content nl).length : Int))).bind fun after =>
        some ((before ++ after, none),
          (appendInto array (kmp.KMPSearch (array.take n) (strings.Split c.Content nl)).toNat
            after).1) := by
  have h1 : ActionDelete ≠ ActionReplace := by decide
  unfold ApplyChangeInPlace
  simp only [h, true_or, or_true, if_true, ne_eq, h1, not_false_eq_true, if_false]
  rfl

/-- Delete: returned values and backing array after the call. -/
theorem ApplyChangeInPlace_eq_delete (array : List String) (n : Nat) (c : Change)
    (hn : n ≤ array.length) (h : c.Action = ActionDelete) :
    ApplyChangeInPlace array n c =
      (ApplyChange (array.take n) c).map (fun r => (r, arrayAfter array r)) := by
  rw [ApplyChangeInPlace_delete array n c h, ApplyChange_delete _ c h]
  by_cases hk : kmp.KMPSearch (array.take n) (strings.Split c.Content nl) = -1
  · rw [if_pos hk, if_pos hk]; rfl
  · rw [if_neg hk, if_neg hk]
    cases hb : sliceTo (array.take n)
        (kmp.KMPSearch (array.take n) (strings.Split c.Content nl)) with
    | none => rfl
    | some before =>
      cases ha : sliceFrom (array.take n)
          (kmp.KMPSearch (array.take n) (strings.Split c.Content nl) +
            ((strings.Split c.Content nl).length : Int)) with
      | none => rfl
      | some after =>
        obtain ⟨_, h2, h3⟩ := sliceTo_eq_some hb
        have hlen : (array.take n).length = n := by simp [hn]
        simp only [Option.some_bind, Option.map_some', arrayAfter]
        rw [appendInto_behind_lines array n _ _ (by omega) hn, ← h3]

/-- The `case ActionInsert` branch, with the backing array. -/
theorem ApplyChangeInPlace_insert (array : List String) (n : Nat) (c : Change)
    (h : c.Action = ActionInsert) :
    ApplyChangeInPlace array n c =
      (if (array.take n).length = 0 then
        some ((array.take n ++ [c.Content], none),
          (appendInto array (array.take n).length [c.Content]).1)
      else
        if c.DestinationAbove ≠ "" ∧ c.DestinationBelow ≠ "" then
          some (([], some (Error.ErrInvalidChange msgBothDestinations)), array)
        else
          match FindLocation (array.take n) (strings.Split c.destination nl) with
          | (_, some err) => some (([], some err), array)
          | (insertIdx, none) =>
            (sliceTo (array.take n)
              (if c.DestinationBelow ≠ "" then
                insertIdx + ((strings.Split c.destination nl).length : Int)
              else insertIdx)).bind fun front =>
            (sliceFrom (array.take n)
              (if c.DestinationBelow ≠ "" then
                insertIdx + ((strings.Split c.destination nl).length : Int)
              else insertIdx)).bind fun back =>
            some ((front ++ (strings.Split c.Content nl ++ back), none),
              (appendInto array
                (if c.DestinationBelow ≠ "" then
                  insertIdx + ((strings.Split c.destination nl).length : Int)
                else insertIdx).toNat (strings.Split c.Content nl ++ back)).1)) := by
  have h1 : ActionInsert ≠ ActionReplace := by decide
  have h2 : ActionInsert ≠ ActionDelete := by decide
  have h3 : ActionInsert ≠ ActionMove := by decide
  unfold ApplyChangeInPlace
  simp only [h, h1, h2, h3, or_self, if_true, if_false, Change.destination]
  rfl

/-- Insert: returned values and backing array after the call. -/
theorem ApplyChangeInPlace_eq_insert (array : List String) (n : Nat) (c : Change)
    (hn : n ≤ array.length) (h : c.Action = ActionInsert) :
    ApplyChangeInPlace array n c =
      (ApplyChange (array.take n) c).map (fun r => (r, arrayAfter array r)) := by
  have hlen : (array.take n).length = n := by simp [hn]
  rw [ApplyChangeInPlace_insert array n c h, ApplyChange_insert _ c h]
  by_cases h0 : (array.take n).length = 0
  · rw [if_pos h0, if_pos h0]
    simp only [Option.map_some', arrayAfter]
    have := appendInto_behind_lines array n (array.take n).length [c.Content] (by omega) hn
    rw [this, List.take_of_length_le (Nat.le_refl _)]
  · rw [if_neg h0, if_neg h0]
    by_cases hboth : c.DestinationAbove ≠ "" ∧ c.DestinationBelow ≠ ""
    · simp only [if_pos hboth]; rfl
    · simp only [if_neg hboth]
      rcases hfl : FindLocation (array.take n) (strings.Split c.destination nl) with ⟨idx, err⟩
      cases err with
      | some e => rfl
      | none =>
        simp only [Option.bind_eq_bind]
        cases hb : sliceTo (array.take n)
            (if c.DestinationBelow ≠ "" then
              idx + ((strings.Split c.destination nl).length : Int) else idx) with
        | none => rfl
        | some front =>
          cases ha : sliceFrom (array.take n)
              (if c.DestinationBelow ≠ "" then
                idx + ((strings.Split c.destination nl).length : Int) else idx) with
          | none => rfl
          | some back =>
            obtain ⟨_, h2, h3⟩ := sliceTo_eq_some hb
            simp only [Option.some_bind, Option.map_some', arrayAfter]
            rw [appendInto_behind_lines array n _ _ (by omega) hn, ← h3]

/-- The `default` case: returned values and backing array after the call. -/
theorem ApplyChangeInPlace_eq_default (array : List String) (n : Nat) (c : Change)
    (h1 : c.Action ≠ ActionReplace) (h2 : c.Action ≠ ActionDelete)
    (h3 : c.Action ≠ ActionMove) (h4 : c.Action ≠ ActionInsert) :
    ApplyChangeInPlace array n c =
      (ApplyChange (array.take n) c).map (fun r => (r, arrayAfter array r)) := by
  rw [ApplyChange_default _ c h1 h2 h3 h4]
  unfold ApplyChangeInPlace
  simp only []
  rw [if_neg (by simp [h1, h2, h3]), if_neg h4]
  rfl

/-- The `ActionMove` branch, with the backing array. -/
theorem ApplyChangeInPlace_move (array : List String) (n : Nat) (c : Change)
    (h : c.Action = ActionMove) :
    ApplyChangeInPlace array n c =
      (let contentLines := strings.Split c.Content nl
      let startIdx := kmp.KMPSearch (array.take n) contentLines
      if startIdx = -1 then some (([], some Error.ErrCodeBlock), array)
      else
        let endIdx := startIdx + (contentLines.length : Int)
        if c.DestinationAbove ≠ "" ∧ c.DestinationBelow ≠ "" then
          some (([], some (Error.ErrInvalidChange msgBothDestinations)), array)
        else
          let destLines := strings.Split c.destination nl
          match FindLocation (array.take n) destLines with
          | (_, some err) => some (([], some err), array)
          | (moveIdx, none) => do
            let moveIdx :=
              if c.DestinationBelow ≠ "" then moveIdx + (destLines.length : Int)
              else moveIdx
            let segment ← slice (array.take n) startIdx endIdx
            let before ← sliceTo (array.take n) startIdx
            let after ← sliceFrom (array.take n) endIdx
            let removed := appendInto array startIdx.toNat after
            let sourceLines := before ++ after
            if (sourceLines.length : Int) < moveIdx then
              let array2 :=
                if removed.2 then (appendInto removed.1 sourceLines.length segment).1
                else removed.1
              some ((sourceLines ++ segment, none), array2)
            else do
              let front ← sliceTo sourceLines moveIdx
              let back ← sliceFrom sourceLines moveIdx
              let array2 :=
                if removed.2 then (appendInto removed.1 moveIdx.toNat (segment ++ back)).1
                else removed.1
              some ((front ++ (segment ++ back), none), array2)) := by
  have h1 : ActionMove ≠ ActionReplace := by decide
  have h2 : ActionMove ≠ ActionDelete := by decide
  unfold ApplyChangeInPlace
  simp only [h, or_true, if_true, ne_eq, h1, h2, not_false_eq_true, if_false,
    Change.destination]

/-- The two in-place appends of a move: the removal always fits the caller's
array, and so does putting the segment back. -/
theorem move_appends (array : List String) (n : Nat) (hn : n ≤ array.length)
    (s e : Int) (segment before after : List String)
    (hseg : slice (array.take n) s e = some segment)
    (hb : sliceTo (array.take n) s = some before)
    (ha : sliceFrom (array.take n) e = some after) :
    appendInto array s.toNat after =
      ((before ++ after) ++ array.drop (before ++ after).length, true) ∧
    (before ++ after).length + segment.length = n ∧
    ∀ (m : Nat) (ys : List String), m ≤ (before ++ after).length →
      m + ys.length = n →
      (appendInto ((before ++ after) ++ array.drop (before ++ after).length) m ys).1 =
        ((before ++ after).take m ++ ys) ++ array.drop n := by
  have hlen : (array.take n).length = n := by simp [hn]
  obtain ⟨s0, hse, he, hsegeq⟩ := slice_eq_some hseg
  obtain ⟨_, hs, hbeq⟩ := sliceTo_eq_some hb
  obtain ⟨_, _, haeq⟩ := sliceFrom_eq_some ha
  rw [hlen] at he hs
  have hse' : s.toNat ≤ e.toNat := by omega
  have hbl : before.length = s.toNat := by
    rw [hbeq, List.length_take, hlen]; omega
  have hal : after.length = n - e.toNat := by
    rw [haeq, List.length_drop, hlen]
  have hsl : segment.length = e.toNat - s.toNat := by
    rw [hsegeq, List.length_drop, List.length_take, hlen]; omega
  have hD1 : (before ++ after).length = s.toNat + (n - e.toNat) := by
    rw [List.length_append, hbl, hal]
  have hbt : before = array.take s.toNat := by
    rw [hbeq, List.take_take, Nat.min_eq_left hs]
  refine ⟨?_, by omega, ?_⟩
  · rw [appendInto_fits array s.toNat after (by omega)]
    rw [hD1, hal, ← hbt]
  · intro m ys hm hmy
    have hfit : m + ys.length ≤
        ((before ++ after) ++ array.drop (before ++ after).length).length := by
      rw [List.length_append, List.length_drop]; omega
    rw [appendInto_fits _ m ys hfit]
    simp only
    rw [List.take_append_of_le_length hm, hmy]
    congr 1
    rw [List.drop_append_eq_append_drop, List.drop_of_length_le (by omega), List.nil_append,
      List.drop_drop]
    congr 1
    omega

/-- The backing array after a successful call whose result has the length of
the caller's slice. -/
theorem arrayAfter_fits (array R : List String) (n : Nat) (hn : n ≤ array.length)
    (hR : R.length = n) : arrayAfter array (R, none) = R ++ array.drop n := by
  unfold arrayAfter
  simp only
  rw [if_pos (by omega), hR]

/-- Move: returned values and backing array after the call. -/
theorem ApplyChangeInPlace_eq_move (array : List String) (n : Nat) (c : Change)
    (hn : n ≤ array.length) (h : c.Action = ActionMove) :
    ApplyChangeInPlace array n c =
      (ApplyChange (array.take n) c).map (fun r => (r, arrayAfter array r)) := by
  rw [ApplyChangeInPlace_move array n c h, ApplyChange_move _ c h]
  simp only []
  by_cases hk : kmp.KMPSearch (array.take n) (strings.Split c.Content nl) = -1
  · rw [if_pos hk, if_pos hk]; rfl
  · rw [if_neg hk, if_neg hk]
    by_cases hboth : c.DestinationAbove ≠ "" ∧ c.DestinationBelow ≠ ""
    · rw [if_pos hboth, if_pos hboth]; rfl
    · rw [if_neg hboth, if_neg hboth]
      rcases hfl : FindLocation (array.take n) (strings.Split c.destination nl) with ⟨idx, err⟩
      cases err with
      | some e => rfl
      | none =>
        simp only [Option.bind_eq_bind]
        cases hseg : slice (array.take n)
            (kmp.KMPSearch (array.take n) (strings.Split c.Content nl))
            (kmp.KMPSearch (array.take n) (strings.Split c.Content nl) +
              ((strings.Split c.Content nl).length : Int)) with
        | none => rfl
        | some segment =>
          cases hb : sliceTo (array.take n)
              (kmp.KMPSearch (array.take n) (strings.Split c.Content nl)) with
          | none => rfl
          | some before =>
            cases ha : sliceFrom (array.take n)
                (kmp.KMPSearch (array.take n) (strings.Split c.Content nl) +
                  ((strings.Split c.Content nl).length : Int)) with
            | none => rfl
            | some after =>
              obtain ⟨hrem, hsum, hput⟩ := move_appends array n hn _ _ segment before after
                hseg hb ha
              simp only [Option.some_bind, hrem, if_true]
              generalize (if c.DestinationBelow ≠ "" then
                idx + ((strings.Split c.destination nl).length : Int) else idx) = m
              by_cases hlt : ((before ++ after).length : Int) < m
              · rw [if_pos hlt, if_pos hlt]
                simp only [Option.map_some']
                rw [hput _ segment (Nat.le_refl _) hsum, List.take_length,
                  arrayAfter_fits array _ n hn (by rw [List.length_append]; exact hsum)]
              · rw [if_neg hlt, if_neg hlt]
                cases hf : sliceTo (before ++ after) m with
                | none => rfl
                | some front =>
                  cases hbk : sliceFrom (before ++ after) m with
                  | none => rfl
                  | some back =>
                    obtain ⟨_, hm, hfe⟩ := sliceTo_eq_some hf
                    obtain ⟨_, _, hbe⟩ := sliceFrom_eq_some hbk
                    have hfl : front.length = m.toNat := by
                      rw [hfe, List.length_take]; omega
                    have hbl : back.length = (before ++ after).length - m.toNat := by
                      rw [hbe, List.length_drop]
                    simp only [Option.some_bind, Option.map_some']
                    rw [hput m.toNat (segment ++ back) hm
                        (by rw [List.length_append, hbl]; omega), ← hfe,
                      arrayAfter_fits array _ n hn
                        (by rw [List.length_append, List.length_append, hfl, hbl]; omega)]

/-- The model with the backing array returns the values of `ApplyChange`, and
the backing array after the call is `arrayAfter`: untouched on an error,
overwritten by the result when the result fits the capacity. -/
theorem ApplyChangeInPlace_eq (array : List String) (n : Nat) (c : Change)
    (hn : n ≤ array.length) :
    ApplyChangeInPlace array n c =
      (ApplyChange (array.take n) c).map (fun r => (r, arrayAfter array r)) := by
  by_cases hR : c.Action = ActionReplace
  · exact ApplyChangeInPlace_eq_replace array n c hn hR
  by_cases hD : c.Action = ActionDelete
  · exact ApplyChangeInPlace_eq_delete array n c hn hD
  by_cases hM : c.Action = ActionMove
  · exact ApplyChangeInPlace_eq_move array n c hn hM
  by_cases hI : c.Action = ActionInsert
  · exact ApplyChangeInPlace_eq_insert array n c hn hI
  · exact ApplyChangeInPlace_eq_default array n c hR hD hM hI

/-- C17, as stated, fails: deleting `line2` from the three-line document of
the test suite shifts `line3` down inside the caller's backing array, so the
slice the caller passed in holds `line1, line3, line3` after the call. -/
theorem delete_overwrites_caller_lines :
    ApplyChangeInPlace ["line1", "line2", "line3"] 3
        ⟨"", ActionDelete, "", "", "line2", "", ""⟩ =
      some ((["line1", "line3"], none), ["line1", "line3", "line3"]) ∧
    List.take 3 ["line1", "line3", "line3"] ≠ List.take 3 ["line1", "line2", "line3"] := by
  exact ⟨by decide, by decide⟩

/-- C17, amended: a call of `ApplyChange` on the slice `array[0:n]` that
returns an error leaves the caller's backing array, hence the caller's lines,
as they were. A call that succeeds writes the returned document `R` into the
caller's backing array whenever `R` fits the capacity: the array is then `R`
followed by what was behind it, and the caller's lines are the first lines of
`R` followed by the old tail of the caller's lines. That is always so for
delete and move, whose result is never longer than the caller's lines. Only
when `R` exceeds the capacity is the caller's array left as it was. -/
theorem caller_lines_after_call (array : List String) (n : Nat) (c : Change)
    (hn : n ≤ array.length) (R : List String) (err : Option Error)
    (after : List String)
    (h : ApplyChangeInPlace array n c = some ((R, err), after)) :
    ApplyChange (array.take n) c = some (R, err) ∧
    (err ≠ none → after = array ∧ after.take n = array.take n) ∧
    (err = none →
      after = if R.length ≤ array.length then R ++ array.drop R.length else array) ∧
    (err = none → R.length ≤ array.length →
      after = R ++ array.drop R.length ∧
      after.take n = R.take n ++ (array.take n).drop R.length) ∧
    (err = none → array.length < R.length →
      after = array ∧ after.take n = array.take n) ∧
    (err = none → c.Action = ActionDelete ∨ c.Action = ActionMove →
      R.length ≤ n ∧ R.length ≤ array.length ∧
      after = R ++ array.drop R.length ∧
      after.take n = R ++ (array.take n).drop R.length) := by
  rw [ApplyChangeInPlace_eq array n c hn] at h
  cases hv : ApplyChange (array.take n) c with
  | none => rw [hv] at h; simp at h
  | some r =>
    rw [hv] at h
    simp only [Option.map_some', Option.some.injEq, Prod.mk.injEq] at h
    obtain ⟨hr, hafter⟩ := h
    subst hr
    have hlen : (array.take n).length = n := by simp [hn]
    have hsucc : err = none →
        after = if R.length ≤ array.length then R ++ array.drop R.length else array := by
      intro he
      subst he
      rw [← hafter]
      rfl
    have hfit : err = none → R.length ≤ array.length →
        after = R ++ array.drop R.length ∧
        after.take n = R.take n ++ (array.take n).drop R.length := by
      intro he hle
      have h1 : after = R ++ array.drop R.length := by rw [hsucc he, if_pos hle]
      refine ⟨h1, ?_⟩
      rw [h1, List.take_append_eq_append_take, List.drop_take]
    have hshort : err = none → c.Action = ActionDelete ∨ c.Action = ActionMove →
        R.length ≤ n := by
      intro he hact
      subst he
      rcases ApplyChange_outcomes (array.take n) c with h1 | ⟨msg, h1⟩ | ⟨R1, h1, _, hd, hm⟩
      · rw [h1] at hv; simp at hv
      · rw [h1] at hv; simp at hv
      · rw [h1] at hv
        simp only [Option.some.injEq, Prod.mk.injEq, and_true] at hv
        subst hv
        rcases hact with hact | hact
        · have := hd hact; omega
        · have := hm hact; omega
    refine ⟨rfl, ?_, hsucc, hfit, ?_, ?_⟩
    · intro he
      cases err with
      | none => exact absurd rfl he
      | some e =>
        have : after = array := by rw [← hafter]; rfl
        exact ⟨this, by rw [this]⟩
    · intro he hgt
      have : after = array := by rw [hsucc he, if_neg (by omega)]
      exact ⟨this, by rw [this]⟩
    · intro he hact
      have hle := hshort he hact
      obtain ⟨h1, h2⟩ := hfit he (by omega)
      refine ⟨hle, by omega, h1, ?_⟩
      rw [h2, List.take_of_length_le hle]

/-- Witness for the amended C17: deleting `line2` from the caller's slice
`array[0:3]` of a four-element array succeeds and writes the result into the
array; the caller's three lines are then `line1, line3, line3`. -/
theorem caller_lines_after_call_witness :
    (3 ≤ List.length ["line1", "line2", "line3", "spare"] ∧
      ApplyChangeInPlace ["line1", "line2", "line3", "spare"] 3
          ⟨"", ActionDelete, "", "", "line2", "", ""⟩ =
        some ((["line1", "line3"], none), ["line1", "line3", "line3", "spare"])) ∧
    (List.length ["line1", "line3"] ≤ 3 ∧
      List.length ["line1", "line3"] ≤ List.length ["line1", "line2", "line3", "spare"] ∧
      ["line1", "line3", "line3", "spare"] =
        ["line1", "line3"] ++
          List.drop (List.length ["line1", "line3"]) ["line1", "line2", "line3", "spare"] ∧
      List.take 3 ["line1", "line3", "line3", "spare"] =
        ["line1", "line3"] ++
          List.drop (List.length ["line1", "line3"])
            (List.take 3 ["line1", "line2", "line3", "spare"])) ∧
    List.take 3 ["line1", "line3", "line3", "spare"] = ["line1", "line3", "line3"] :=
  ⟨⟨by decide, by decide⟩,
    (caller_lines_after_call ["line1", "line2", "line3", "spare"] 3
      ⟨"", ActionDelete, "", "", "line2", "", ""⟩ (by decide) ["line1", "line3"] none
      ["line1", "line3", "line3", "spare"] (by decide)).2.2.2.2.2 rfl (Or.inl rfl),
    by decide⟩

/-! ## Totality and slice bounds -/

/-- With the modelled matcher, `FindLocationWith` is `FindLocation`. -/
theorem FindLocationWith_KMPSearch (H N : List String) :
    FindLocationWith kmp.KMPSearch H N = FindLocation H N := rfl

/-- With the modelled matcher, `ApplyChangeWith` is `ApplyChange`. -/
theorem ApplyChangeWith_KMPSearch (D : List String) (c : Change) :
    ApplyChangeWith kmp.KMPSearch D c = ApplyChange D c := rfl

/-- The modelled matcher satisfies the assumption: it returns `-1` or the
position of an occurrence. -/
theorem KMPSearch_sound : MatcherSound kmp.KMPSearch := by
  intro H N
  by_cases hN : N = []
  · left; subst hN; rfl
  · rcases kmp.KMPSearch_spec H N hN with ⟨h, _⟩ | ⟨i, h1, h2, _⟩
    · exact Or.inl h
    · exact Or.inr ⟨i, h1, h2⟩

/-- The two outcomes of `FindLocationWith` under the assumption on the
matcher: the error with index `-1`, or an index at which the block occurs. -/
theorem FindLocationWith_cases (search : List String → List String → Int)
    (hs : MatcherSound search) (H N : List String) :
    FindLocationWith search H N = (-1, some Error.ErrCodeBlock) ∨
    ∃ j : Nat, FindLocationWith search H N = ((j : Int), none) ∧ kmp.OccursAt H N j := by
  unfold FindLocationWith
  by_cases hlen : N.length = 0
  · left; rw [if_pos hlen]
  · rw [if_neg hlen]
    rcases hs H N with h | ⟨j, hj, hocc⟩
    · left; simp only [h, if_true]
    · right
      refine ⟨j, ?_, hocc⟩
      simp only [hj]
      rw [if_neg (by omega)]

/-- Replace and delete never slice out of range. -/
theorem splice_total (D B : List String) (i : Nat) (hocc : kmp.OccursAt D B i)
    (f : List String → List String → List String × Option Error) :
    ∃ r, ((sliceTo D (i : Int)).bind fun before =>
      (sliceFrom D ((i : Int) + (B.length : Int))).bind fun after =>
        some (f before after)) = some r := by
  obtain ⟨h1, h2⟩ := slices_around_block D B i hocc
  rw [h1, h2]
  exact ⟨_, rfl⟩

/-- Putting the segment back never slices out of range: an index beyond the
post-removal document takes the append branch, any other index is a valid
split point. -/
theorem paste_total (D1 segment : List String) (m : Int) (hm : 0 ≤ m) :
    ∃ r, (if (D1.length : Int) < m then some (D1 ++ segment, (none : Option Error))
      else (sliceTo D1 m).bind fun front => (sliceFrom D1 m).bind fun back =>
        some (front ++ (segment ++ back), none)) = some r := by
  by_cases hlt : (D1.length : Int) < m
  · rw [if_pos hlt]; exact ⟨_, rfl⟩
  · rw [if_neg hlt]
    have hcast : m = ((m.toNat : Nat) : Int) := by omega
    rw [hcast, sliceTo_natCast D1 m.toNat (by omega), sliceFrom_natCast D1 m.toNat (by omega)]
    exact ⟨_, rfl⟩

/-- Under the assumption on the matcher every call returns: no slice
expression of `ApplyChange` is out of range. -/
theorem ApplyChangeWith_total (search : List String → List String → Int)
    (hs : MatcherSound search) (D : List String) (c : Change) :
    ∃ r, ApplyChangeWith search D c = some r := by
  have hRD : ActionDelete ≠ ActionReplace := by decide
  have hRM : ActionMove ≠ ActionReplace := by decide
  have hDM : ActionMove ≠ ActionDelete := by decide
  have hIR : ActionInsert ≠ ActionReplace := by decide
  have hID : ActionInsert ≠ ActionDelete := by decide
  have hIM : ActionInsert ≠ ActionMove := by decide
  by_cases hR : c.Action = ActionReplace
  · unfold ApplyChangeWith
    simp only [hR, true_or, if_true, ne_eq, not_true_eq_false, if_false]
    rcases hs D (strings.Split c.Old nl) with h | ⟨i, hi, hocc⟩
    · simp only [h, if_true]; exact ⟨_, rfl⟩
    · simp only [hi]
      rw [if_neg (by omega)]
      exact splice_total D _ i hocc
        (fun before after => (before ++ (strings.Split c.New nl ++ after), none))
  by_cases hDel : c.Action = ActionDelete
  · unfold ApplyChangeWith
    simp only [hDel, true_or, or_true, if_true, ne_eq, hRD, not_false_eq_true, if_false]
    rcases hs D (strings.Split c.Content nl) with h | ⟨i, hi, hocc⟩
    · simp only [h, if_true]; exact ⟨_, rfl⟩
    · simp only [hi]
      rw [if_neg (by omega)]
      exact splice_total D _ i hocc (fun before after => (before ++ after, none))
  by_cases hM : c.Action = ActionMove
  · unfold ApplyChangeWith
    simp only [hM, or_true, if_true, ne_eq, hRM, hDM, not_false_eq_true, if_false]
    rcases hs D (strings.Split c.Content nl) with h | ⟨i, hi, hocc⟩
    · simp only [h, if_true]; exact ⟨_, rfl⟩
    · simp only [hi]
      rw [if_neg (by omega)]
      by_cases hboth : ¬c.DestinationAbove = "" ∧ ¬c.DestinationBelow = ""
      · rw [if_pos hboth]; exact ⟨_, rfl⟩
      · rw [if_neg hboth]
        rcases FindLocationWith_cases search hs D
            (strings.Split
              (if c.DestinationAbove = "" then c.DestinationBelow else c.DestinationAbove) nl)
          with hfl | ⟨j, hfl, _⟩
        · simp only [hfl]; exact ⟨_, rfl⟩
        · simp only [hfl]
          obtain ⟨h1, h2⟩ := slices_around_block D _ i hocc
          have h3 := segment_eq_block D _ i hocc
          simp only [Option.bind_eq_bind, h1, h2, h3, Option.some_bind]
          apply paste_total
          split <;> omega
  by_cases hI : c.Action = ActionInsert
  · unfold ApplyChangeWith
    simp only [hI, hIR, hID, hIM, or_self, if_true, if_false]
    by_cases h0 : D.length = 0
    · rw [if_pos h0]; exact ⟨_, rfl⟩
    · rw [if_neg h0]
      by_cases hboth : c.DestinationAbove ≠ "" ∧ c.DestinationBelow ≠ ""
      · rw [if_pos hboth]; exact ⟨_, rfl⟩
      · rw [if_neg hboth]
        rcases FindLocationWith_cases search hs D
            (strings.Split
              (if c.DestinationAbove = "" then c.DestinationBelow else c.DestinationAbove) nl)
          with hfl | ⟨j, hfl, hocc⟩
        · simp only [hfl]; exact ⟨_, rfl⟩
        · simp only [hfl]
          have hb := hocc.1
          by_cases hbel : c.DestinationBelow ≠ ""
          · simp only [if_pos hbel, Option.bind_eq_bind]
            rw [← Nat.cast_add, sliceTo_natCast D _ hb, sliceFrom_natCast D _ hb]
            exact ⟨_, rfl⟩
          · simp only [if_neg hbel, Option.bind_eq_bind]
            rw [sliceTo_natCast D j (by omega), sliceFrom_natCast D j (by omega)]
            exact ⟨_, rfl⟩
  · unfold ApplyChangeWith
    rw [if_neg (by simp [hR, hDel, hM]), if_neg hI]
    exact ⟨_, rfl⟩

/-- The modelled `ApplyChange` always returns. -/
theorem ApplyChange_total (D : List String) (c : Change) :
    ∃ r, ApplyChange D c = some r := by
  rw [← ApplyChangeWith_KMPSearch]
  exact ApplyChangeWith_total kmp.KMPSearch KMPSearch_sound D c

/-- C21: assuming the matcher returns either `-1` or a true match position,
`ApplyChange` never slices out of range and always returns a document or an
error. The bounds: a found block ends inside the document
(`startIdx + |block| ≤ len(D)`); an anchor index returned by `FindLocation`,
also with the anchor's length added, is at most `len(D)`; and an index that is
not beyond the post-removal document of a move is a valid split point, larger
indices taking the append branch. -/
theorem ApplyChange_never_out_of_range (search : List String → List String → Int)
    (hs : MatcherSound search) (D : List String) (c : Change) :
    (∃ R err, ApplyChangeWith search D c = some (R, err)) ∧
    (∀ (B : List String) (i : Int), search D B = i → i ≠ -1 →
      0 ≤ i ∧ i + (B.length : Int) ≤ (D.length : Int)) ∧
    (∀ (A : List String) (idx : Int), FindLocationWith search D A = (idx, none) →
      0 ≤ idx ∧ idx + (A.length : Int) ≤ (D.length : Int)) ∧
    (∀ (D1 : List String) (m : Int), 0 ≤ m → ¬ ((D1.length : Int) < m) →
      sliceTo D1 m = some (D1.take m.toNat) ∧ sliceFrom D1 m = some (D1.drop m.toNat)) := by
  refine ⟨?_, ?_, ?_, ?_⟩
  · obtain ⟨⟨R, err⟩, h⟩ := ApplyChangeWith_total search hs D c
    exact ⟨R, err, h⟩
  · intro B i hi hne
    rcases hs D B with h | ⟨k, hk, hocc⟩
    · rw [hi] at h; exact absurd h hne
    · have hb := hocc.1
      rw [hi] at hk
      omega
  · intro A idx hfl
    rcases FindLocationWith_cases search hs D A with h | ⟨j, hj, hocc⟩
    · rw [hfl] at h
      simp at h
    · rw [hfl] at hj
      have hb := hocc.1
      have hidx : idx = (j : Int) := (Prod.mk.inj hj).1
      omega
  · intro D1 m hm hlt
    have hcast : m = ((m.toNat : Nat) : Int) := by omega
    constructor
    · conv_lhs => rw [hcast]
      exact sliceTo_natCast D1 m.toNat (by omega)
    · conv_lhs => rw [hcast]
      exact sliceFrom_natCast D1 m.toNat (by omega)

/-- Witness for C21: the modelled matcher satisfies the assumption; a move
whose insertion index lies beyond the post-removal document returns. -/
theorem ApplyChange_never_out_of_range_witness :
    MatcherSound kmp.KMPSearch ∧
    ApplyChange ["x", "y", "a"] ⟨"", ActionMove, "", "", "x\ny", "", "a"⟩ =
      some (["a", "x", "y"], none) ∧
    ((∃ R err, ApplyChangeWith kmp.KMPSearch ["x", "y", "a"]
        ⟨"", ActionMove, "", "", "x\ny", "", "a"⟩ = some (R, err)) ∧
    (∀ (B : List String) (i : Int), kmp.KMPSearch ["x", "y", "a"] B = i → i ≠ -1 →
      0 ≤ i ∧ i + (B.length : Int) ≤ (List.length ["x", "y", "a"] : Int)) ∧
    (∀ (A : List String) (idx : Int),
      FindLocationWith kmp.KMPSearch ["x", "y", "a"] A = (idx, none) →
      0 ≤ idx ∧ idx + (A.length : Int) ≤ (List.length ["x", "y", "a"] : Int)) ∧
    (∀ (D1 : List String) (m : Int), 0 ≤ m → ¬ ((D1.length : Int) < m) →
      sliceTo D1 m = some (D1.take m.toNat) ∧
        sliceFrom D1 m = some (D1.drop m.toNat))) :=
  ⟨KMPSearch_sound, by decide,
    ApplyChange_never_out_of_range kmp.KMPSearch KMPSearch_sound ["x", "y", "a"]
      ⟨"", ActionMove, "", "", "x\ny", "", "a"⟩⟩

/-! ## Move before the source, and moves and inserts without a destination -/

/-- An occurrence of a one-line block is a line equal to it. -/
theorem occursAt_singleton (D : List String) (a : String) (k : Nat) :
    kmp.OccursAt D [a] k ↔ D[k]? = some a := by
  rw [kmp.occursAt_iff_forall]
  constructor
  · rintro ⟨_, h⟩
    simpa using h 0 (by simp)
  · intro h
    have hk : k < D.length := by
      by_contra hge
      rw [List.getElem?_eq_none (by omega)] at h
      simp at h
    refine ⟨by simpa using hk, ?_⟩
    intro k1 hk1
    have : k1 = 0 := by simpa using hk1
    subst this
    simpa using h

/-- A one-line block occurs somewhere exactly when the line is in the
document. -/
theorem exists_occursAt_singleton (D : List String) (a : String) :
    (∃ k, kmp.OccursAt D [a] k) ↔ a ∈ D := by
  constructor
  · rintro ⟨k, hk⟩
    rw [occursAt_singleton] at hk
    exact List.getElem?_mem hk
  · intro h
    obtain ⟨k, hk, hka⟩ := List.getElem_of_mem h
    refine ⟨k, (occursAt_singleton D a k).mpr ?_⟩
    rw [List.getElem?_eq_getElem hk, hka]

/-- The first occurrence of a one-line block is the first line equal to it. -/
theorem firstOccurrence_singleton (D : List String) (a : String) (k : Nat) :
    kmp.FirstOccurrence D [a] k ↔
      D[k]? = some a ∧ ∀ k1, k1 < k → D[k1]? ≠ some a := by
  unfold kmp.FirstOccurrence
  rw [occursAt_singleton]
  constructor
  · rintro ⟨h1, h2⟩
    refine ⟨h1, ?_⟩
    intro k1 hk1 hk1a
    have := h2 k1 ((occursAt_singleton D a k1).mpr hk1a)
    omega
  · rintro ⟨h1, h2⟩
    refine ⟨h1, ?_⟩
    intro k1 hk1
    by_contra hlt
    exact h2 k1 (by omega) ((occursAt_singleton D a k1).mp hk1)

/-- With both destination fields empty the destination text is empty and its
block is the single empty line. -/
theorem destination_block_of_neither (c : Change) (ha : c.DestinationAbove = "")
    (hb : c.DestinationBelow = "") : strings.Split c.destination nl = [""] := by
  unfold Change.destination
  rw [if_pos ha, hb]
  decide

/-- C23: with neither destination field set, destination resolution uses the
one-line block `[""]` as a `destination_above` anchor. On a non-empty document
an insert returns `D[0:k] ++ split(content) ++ D[k:]` where `k` is the index of
the first empty line, and an insert, or a move whose content block is found,
fails with the block-not-found error exactly when the document has no empty
line. -/
theorem neither_destination_uses_empty_line (D : List String) (c : Change)
    (hD : D ≠ []) (ha : c.DestinationAbove = "") (hb : c.DestinationBelow = "") :
    strings.Split c.destination nl = [""] ∧
    (c.Action = ActionInsert →
      (∀ k, D[k]? = some "" → (∀ k1, k1 < k → D[k1]? ≠ some "") →
        ApplyChange D c = some (D.take k ++ strings.Split c.Content nl ++ D.drop k, none)) ∧
      ((∃ R, ApplyChange D c = some (R, some Error.ErrCodeBlock)) ↔ "" ∉ D) ∧
      ("" ∉ D → ApplyChange D c = some ([], some Error.ErrCodeBlock))) ∧
    (c.Action = ActionMove → (∃ k, kmp.OccursAt D (strings.Split c.Content nl) k) →
      ((∃ R, ApplyChange D c = some (R, some Error.ErrCodeBlock)) ↔ "" ∉ D) ∧
      ("" ∉ D → ApplyChange D c = some ([], some Error.ErrCodeBlock))) := by
  have hdest := destination_block_of_neither c ha hb
  have hnotboth : ¬ (c.DestinationAbove ≠ "" ∧ c.DestinationBelow ≠ "") :=
    fun h => h.1 ha
  have hnone : "" ∉ D → ∀ k, ¬ kmp.OccursAt D (strings.Split c.destination nl) k := by
    intro hmem k hk
    rw [hdest] at hk
    exact hmem ((exists_occursAt_singleton D "").mp ⟨k, hk⟩)
  refine ⟨hdest, ?_, ?_⟩
  · intro hact
    have hfound : ∀ k, D[k]? = some "" → (∀ k1, k1 < k → D[k1]? ≠ some "") →
        ApplyChange D c =
          some (D.take k ++ strings.Split c.Content nl ++ D.drop k, none) := by
      intro k hk hmin
      have hfirst : kmp.FirstOccurrence D (strings.Split c.destination nl) k := by
        rw [hdest]
        exact (firstOccurrence_singleton D "" k).mpr ⟨hk, hmin⟩
      have hres := ApplyChange_insert_found D c hact hD hnotboth k hfirst
      rw [if_neg (by simp [hb])] at hres
      exact hres
    have hmiss : "" ∉ D → ApplyChange D c = some ([], some Error.ErrCodeBlock) :=
      fun hmem => ApplyChange_insert_anchor_missing D c hact hD hnotboth (hnone hmem)
    refine ⟨hfound, ⟨?_, fun hmem => ⟨[], hmiss hmem⟩⟩, hmiss⟩
    rintro ⟨R, hR⟩ hmem
    obtain ⟨k, hk⟩ := (exists_occursAt_singleton D "").mpr hmem
    rw [← hdest] at hk
    obtain ⟨j, _, hj⟩ :=
      kmp.KMPSearch_of_occurs D _ (strings.Split_ne_nil c.destination nl) ⟨k, hk⟩
    rw [ApplyChange_insert_found D c hact hD hnotboth j hj] at hR
    simp at hR
  · intro hact hocc
    have hmiss : "" ∉ D → ApplyChange D c = some ([], some Error.ErrCodeBlock) :=
      fun hmem => ApplyChange_move_anchor_missing D c hact hocc hnotboth (hnone hmem)
    refine ⟨⟨?_, fun hmem => ⟨[], hmiss hmem⟩⟩, hmiss⟩
    rintro ⟨R, hR⟩ hmem
    obtain ⟨k, hk⟩ := (exists_occursAt_singleton D "").mpr hmem
    rw [← hdest] at hk
    obtain ⟨j, _, hj⟩ :=
      kmp.KMPSearch_of_occurs D _ (strings.Split_ne_nil c.destination nl) ⟨k, hk⟩
    obtain ⟨i, _, hi⟩ :=
      kmp.KMPSearch_of_occurs D _ (strings.Split_ne_nil c.Content nl) hocc
    rw [ApplyChange_move_found D c hact hnotboth i j hi hj] at hR
    simp at hR

/-- Witness for C23: an insert with no destination goes above the first empty
line of `[a, "", c, ""]`. -/
theorem neither_destination_uses_empty_line_witness :
    ((["a", "", "c", ""] : List String) ≠ [] ∧ ("" : String) = "" ∧
      (["a", "", "c", ""] : List String)[1]? = some "" ∧
      (∀ k1, k1 < 1 → (["a", "", "c", ""] : List String)[k1]? ≠ some "")) ∧
    ApplyChange ["a", "", "c", ""] ⟨"", ActionInsert, "", "", "x\ny", "", ""⟩ =
      some (List.take 1 ["a", "", "c", ""] ++ strings.Split "x\ny" nl ++
        List.drop 1 ["a", "", "c", ""], none) ∧
    ApplyChange ["a", "", "c", ""] ⟨"", ActionInsert, "", "", "x\ny", "", ""⟩ =
      some (["a", "x", "y", "", "c", ""], none) := by
  have hmin : ∀ k1, k1 < 1 → (["a", "", "c", ""] : List String)[k1]? ≠ some "" := by
    intro k1 hk1
    have : k1 = 0 := by omega
    subst this
    decide
  exact ⟨⟨by decide, rfl, by decide, hmin⟩,
    ((neither_destination_uses_empty_line ["a", "", "c", ""]
      ⟨"", ActionInsert, "", "", "x\ny", "", ""⟩ (by decide) rfl rfl).2.1 rfl).1 1
        (by decide) hmin,
    by decide⟩

/-- A block sits right behind whatever precedes it. -/
theorem occursAt_behind (P X S : List String) :
    kmp.OccursAt (P ++ (X ++ S)) X P.length := by
  refine ⟨by simp only [List.length_append]; omega, ?_⟩
  rw [List.drop_left, List.take_left]

/-- An occurrence survives appending lines at the end. -/
theorem occursAt_append_right (L S A : List String) (j : Nat) (h : kmp.OccursAt L A j) :
    kmp.OccursAt (L ++ S) A j := by
  obtain ⟨h1, h2⟩ := h
  refine ⟨by rw [List.length_append]; omega, ?_⟩
  rw [List.drop_append_of_le_length (by omega),
    List.take_append_of_le_length (by rw [List.length_drop]; omega), h2]

/-- An occurrence that ends at or before `p` is an occurrence in the first `p`
lines. -/
theorem occursAt_take (D A : List String) (j p : Nat) (h : kmp.OccursAt D A j)
    (hp : j + A.length ≤ p) : kmp.OccursAt (D.take p) A j := by
  obtain ⟨h1, h2⟩ := h
  refine ⟨by rw [List.length_take]; omega, ?_⟩
  rw [List.drop_take, List.take_take, Nat.min_eq_left (by omega), h2]

/-- An occurrence at `j` is an occurrence at the start of what follows line
`j`. -/
theorem occursAt_drop (D A : List String) (j : Nat) (h : kmp.OccursAt D A j) :
    kmp.OccursAt (D.drop j) A 0 := by
  obtain ⟨h1, h2⟩ := h
  refine ⟨by rw [List.length_drop]; omega, ?_⟩
  rw [List.drop_zero, h2]

/-- A block put right behind `P` starts the rest of the document. -/
theorem occursAt_after (P Q A : List String) (h : kmp.OccursAt Q A 0) :
    kmp.OccursAt (P ++ Q) A P.length := by
  obtain ⟨h1, h2⟩ := h
  refine ⟨by rw [List.length_append]; omega, ?_⟩
  rw [List.drop_left]
  rwa [List.drop_zero] at h2

/-- A move whose insertion index `p` does not lie behind the content block:
the post-removal document is split inside the lines that precede the block. -/
theorem move_before_source (D X : List String) (i p : Nat) (hocc : kmp.OccursAt D X i)
    (hp : p ≤ i) :
    (D.take i ++ D.drop (i + X.length)).take p ++
        (X ++ (D.take i ++ D.drop (i + X.length)).drop p) =
      D.take p ++ X ++ (D.take i).drop p ++ D.drop (i + X.length) := by
  have hi : i ≤ D.length := by have := hocc.1; omega
  have hl : (D.take i).length = i := by rw [List.length_take]; omega
  rw [List.take_append_of_le_length (by omega), List.take_take, Nat.min_eq_left hp,
    List.drop_append_of_le_length (by omega)]
  simp only [List.append_assoc]

/-- C22: a move with exactly one destination set, whose anchor block `A` has
its first occurrence at `j` and whose content block `X` has its first
occurrence at `i` with `j + |A| ≤ i` (the anchor precedes the source), returns
`D[0:p] ++ X ++ D[p:i] ++ D[i+|X|:]` with `p = j + |A|` for
`destination_below` and `p = j` for `destination_above`; in the result `X`
stands immediately after, respectively immediately before, the anchor
block. -/
theorem move_lands_at_anchor_before_source (D : List String) (c : Change)
    (hact : c.Action = ActionMove)
    (hone : (c.DestinationAbove ≠ "" ∧ c.DestinationBelow = "") ∨
      (c.DestinationAbove = "" ∧ c.DestinationBelow ≠ ""))
    (i j : Nat)
    (hi : kmp.FirstOccurrence D (strings.Split c.Content nl) i)
    (hj : kmp.FirstOccurrence D (strings.Split c.destination nl) j)
    (hprec : j + (strings.Split c.destination nl).length ≤ i) :
    ∃ p R, (c.DestinationBelow ≠ "" → p = j + (strings.Split c.destination nl).length) ∧
      (c.DestinationAbove ≠ "" → p = j) ∧
      R = D.take p ++ strings.Split c.Content nl ++ (D.take i).drop p ++
        D.drop (i + (strings.Split c.Content nl).length) ∧
      ApplyChange D c = some (R, none) ∧
      (c.DestinationBelow ≠ "" →
        kmp.OccursAt R (strings.Split c.destination nl) j ∧
        kmp.OccursAt R (strings.Split c.Content nl)
          (j + (strings.Split c.destination nl).length)) ∧
      (c.DestinationAbove ≠ "" →
        kmp.OccursAt R (strings.Split c.Content nl) j ∧
        kmp.OccursAt R (strings.Split c.destination nl)
          (j + (strings.Split c.Content nl).length)) := by
  have hnotboth : ¬ (c.DestinationAbove ≠ "" ∧ c.DestinationBelow ≠ "") := by
    rcases hone with ⟨_, h⟩ | ⟨h, _⟩
    · exact fun hb => hb.2 h
    · exact fun hb => hb.1 h
  have hib := hi.1.1
  have hD1 : i ≤ (D.take i ++ D.drop (i + (strings.Split c.Content nl).length)).length := by
    rw [List.length_append, List.length_take, List.length_drop]; omega
  have hres := ApplyChange_move_found D c hact hnotboth i j hi hj
  rcases hone with ⟨ha, hb⟩ | ⟨ha, hb⟩
  · -- destination_above: the block goes in at `j`
    have hcond : ¬ c.DestinationBelow ≠ "" := fun h => h hb
    simp only [if_neg hcond] at hres
    rw [if_neg (by omega), move_before_source D _ i j hi.1 (by omega)] at hres
    have hlj : (D.take j).length = j := by rw [List.length_take]; omega
    refine ⟨j, _, fun h => absurd hb h, fun _ => rfl, rfl, hres, fun h => absurd hb h, ?_⟩
    intro _
    constructor
    · have h1 := occursAt_behind (D.take j) (strings.Split c.Content nl)
        ((D.take i).drop j ++ D.drop (i + (strings.Split c.Content nl).length))
      rw [hlj] at h1
      simpa only [List.append_assoc] using h1
    · have h2 : kmp.OccursAt
          ((D.take i).drop j ++ D.drop (i + (strings.Split c.Content nl).length))
          (strings.Split c.destination nl) 0 :=
        occursAt_append_right _ _ _ 0
          (occursAt_drop _ _ j (occursAt_take D _ j i hj.1 hprec))
      have h3 := occursAt_after (D.take j ++ strings.Split c.Content nl) _ _ h2
      rw [List.length_append, hlj] at h3
      simpa only [List.append_assoc] using h3
  · -- destination_below: the block goes in right behind the anchor
    simp only [if_pos hb] at hres
    rw [if_neg (by omega), move_before_source D _ i _ hi.1 hprec] at hres
    have hlp : (D.take (j + (strings.Split c.destination nl).length)).length =
        j + (strings.Split c.destination nl).length := by
      rw [List.length_take]; omega
    refine ⟨j + (strings.Split c.destination nl).length, _, fun _ => rfl,
      fun h => absurd ha h, rfl, hres, ?_, fun h => absurd ha h⟩
    intro _
    constructor
    · have h1 := occursAt_append_right _
        (strings.Split c.Content nl ++
          ((D.take i).drop (j + (strings.Split c.destination nl).length) ++
            D.drop (i + (strings.Split c.Content nl).length))) _ j
        (occursAt_take D _ j _ hj.1 (Nat.le_refl _))
      simpa only [List.append_assoc] using h1
    · have h1 := occursAt_behind (D.take (j + (strings.Split c.destination nl).length))
        (strings.Split c.Content nl)
        ((D.take i).drop (j + (strings.Split c.destination nl).length) ++
          D.drop (i + (strings.Split c.Content nl).length))
      rw [hlp] at h1
      simpa only [List.append_assoc] using h1

/-- Witness for C22: in `[a, b, x, c]` the block `x` moves below the anchor
`a`, which precedes it. -/
theorem move_lands_at_anchor_before_source_witness :
    (kmp.FirstOccurrence ["a", "b", "x", "c"] (strings.Split "x" nl) 2 ∧
      kmp.FirstOccurrence ["a", "b", "x", "c"]
        (strings.Split (Change.destination ⟨"", ActionMove, "", "", "x", "", "a"⟩) nl) 0 ∧
      0 + (strings.Split (Change.destination ⟨"", ActionMove, "", "", "x", "", "a"⟩) nl).length
        ≤ 2) ∧
    ApplyChange ["a", "b", "x", "c"] ⟨"", ActionMove, "", "", "x", "", "a"⟩ =
      some (["a", "x", "b", "c"], none) ∧
    ∃ p R, (("a" : String) ≠ "" → p = 0 +
        (strings.Split (Change.destination ⟨"", ActionMove, "", "", "x", "", "a"⟩) nl).length) ∧
      (("" : String) ≠ "" → p = 0) ∧
      R = List.take p ["a", "b", "x", "c"] ++ strings.Split "x" nl ++
        List.drop p (List.take 2 ["a", "b", "x", "c"]) ++
        List.drop (2 + (strings.Split "x" nl).length) ["a", "b", "x", "c"] ∧
      ApplyChange ["a", "b", "x", "c"] ⟨"", ActionMove, "", "", "x", "", "a"⟩ =
        some (R, none) ∧
      (("a" : String) ≠ "" →
        kmp.OccursAt R
          (strings.Split (Change.destination ⟨"", ActionMove, "", "", "x", "", "a"⟩) nl) 0 ∧
        kmp.OccursAt R (strings.Split "x" nl)
          (0 + (strings.Split
            (Change.destination ⟨"", ActionMove, "", "", "x", "", "a"⟩) nl).length)) ∧
      (("" : String) ≠ "" →
        kmp.OccursAt R (strings.Split "x" nl) 0 ∧
        kmp.OccursAt R
          (strings.Split (Change.destination ⟨"", ActionMove, "", "", "x", "", "a"⟩) nl)
          (0 + (strings.Split "x" nl).length)) := by
  have hX : kmp.FirstOccurrence ["a", "b", "x", "c"] (strings.Split "x" nl) 2 := by
    refine ⟨by decide, ?_⟩
    intro k hk
    by_contra hlt
    have hk2 : k < 2 := by omega
    interval_cases k
    · exact absurd hk (by decide)
    · exact absurd hk (by decide)
  have hA : kmp.FirstOccurrence ["a", "b", "x", "c"]
      (strings.Split (Change.destination ⟨"", ActionMove, "", "", "x", "", "a"⟩) nl) 0 :=
    ⟨by decide, fun k _ => Nat.zero_le k⟩
  exact ⟨⟨hX, hA, by decide⟩, by decide,
    move_lands_at_anchor_before_source ["a", "b", "x", "c"]
      ⟨"", ActionMove, "", "", "x", "", "a"⟩ rfl (Or.inr ⟨rfl, by decide⟩) 2 0 hX hA
      (by decide)⟩

end Differential
